import Mathlib

/-!
Verification of `src/get_history/app.py` (Twelve Data OHLCV backfill).

The Python program is shallowly embedded: JSON values / Python objects
become the inductive type `PyVal`, Python dicts become insertion-ordered
association lists operated on by `dictGet` / `dictSet`, numeric values are
exact rationals (floats are modelled by `ℚ`, and the one square root the
code takes, `var ** 0.5`, by `Real.sqrt`), and code that can raise a
Python exception returns `Except PyErr`.
-/

/-- A Python/JSON value as it flows through `app.py`.  `real` only appears
in values produced by the derived-feature engine (`var ** 0.5` and the
z-score quotient); every value parsed from a response body is one of the
other constructors. -/
inductive PyVal where
  | null
  | bool (b : Bool)
  | str (s : String)
  | num (q : ℚ)
  | real (x : ℝ)
  | listv (xs : List PyVal)
  | dict (kvs : List (String × PyVal))

/-- A row, as in the Python code: a dict from field name to value. -/
abbrev Row := List (String × PyVal)

/-- The Python exceptions `app.py` can raise in the embedded fragment. -/
inductive PyErr where
  | vendorError (message : PyVal)
  | attributeError
  | typeError
  | keyError
  | zeroDivisionError

/-- Python dict lookup `d.get(k)` on an insertion-ordered association
list: first (and in a real dict, only) binding wins. -/
def dictGet (kvs : List (String × α)) (k : String) : Option α :=
  match kvs with
  | [] => Option.none
  | kv :: t => if kv.1 = k then some kv.2 else dictGet t k

/-- Python dict assignment `d[k] = v`: replace the binding in place if the
key exists, otherwise append the new binding at the end. -/
def dictSet (kvs : List (String × α)) (k : String) (v : α) : List (String × α) :=
  match kvs with
  | [] => [(k, v)]
  | kv :: t => if kv.1 = k then (k, v) :: t else kv :: dictSet t k v

/-- Python `d.get(k)` with its implicit `None` default. -/
def objGetV (kvs : List (String × PyVal)) (k : String) : PyVal :=
  (dictGet kvs k).getD .null

/-- Python `d.update(e)`: assign every binding of `e`, in order. -/
def updFields (m : List (String × PyVal)) : List (String × PyVal) → List (String × PyVal)
  | [] => m
  | kv :: t => updFields (dictSet m kv.1 kv.2) t

/-- Numeric value of a digit character. -/
def digitVal (c : Char) : ℕ := c.toNat - 48

/-- Accumulating decimal reading of a digit list. -/
def natFromDigits (cs : List Char) : ℕ :=
  cs.foldl (fun acc c => acc * 10 + digitVal c) 0

/-- Unsigned part of Python `float(str)`: digits, optionally followed by a
point and more digits, with at least one digit overall. -/
def parseUnsigned (cs : List Char) : Option ℚ :=
  let ds := cs.takeWhile (·.isDigit)
  let rest := cs.dropWhile (·.isDigit)
  match rest with
  | [] => if ds.isEmpty then Option.none else some (natFromDigits ds : ℚ)
  | '.' :: fs =>
      if fs.all (·.isDigit) && !(ds.isEmpty && fs.isEmpty) then
        some ((natFromDigits ds : ℚ) + (natFromDigits fs : ℚ) / ((10 : ℚ) ^ fs.length))
      else Option.none
  | _ => Option.none

/-- Python `float(s)` on a string, restricted to optionally signed plain
decimal literals (the only shape the vendor emits); exponent, infinity and
NaN spellings are outside the modelled input space and read as failures. -/
def parseFloat (s : String) : Option ℚ :=
  match s.toList with
  | '-' :: rest => (parseUnsigned rest).map (fun q => -q)
  | '+' :: rest => parseUnsigned rest
  | cs => parseUnsigned cs

/-- `_safe_float` (app.py lines 101–107): `float(x)` with every failure,
including `None`, mapped to `None`. -/
def _safe_float (x : PyVal) : Option ℚ :=
  match x with
  | .null => Option.none
  | .bool b => some (if b then 1 else 0)
  | .num q => some q
  | .str s => parseFloat s
  | .real _ => Option.none
  | .listv _ => Option.none
  | .dict _ => Option.none

/-- Python iteration `for x in v`: lists yield their elements, dicts their
keys, strings their characters; everything else raises `TypeError`. -/
def pyIter (v : PyVal) : Except PyErr (List PyVal) :=
  match v with
  | .listv xs => .ok xs
  | .dict kvs => .ok (kvs.map (fun kv => PyVal.str kv.1))
  | .str s => .ok (s.toList.map (fun c => PyVal.str (String.singleton c)))
  | _ => .error .typeError

/-- Test the Twelve Data error envelope: `isinstance(data, dict) and
data.get("status") == "error"` (app.py line 72), given the dict's bindings. -/
def statusIsError (kvs : List (String × PyVal)) : Bool :=
  match dictGet kvs "status" with
  | some (.str s) => s == "error"
  | _ => false

/-- Build one OHLCV row from one element of the `values` list (app.py
lines 77–90): `datetime` is sliced to 10 characters and a falsy date skips
the row (`Option.none` result); the five numeric fields are stored raw via
`v.get(...)`.  A non-dict element or a non-string `datetime` raises, as
`v.get` / slicing do in Python. -/
def buildRow (v : PyVal) : Except PyErr (Option Row) :=
  match v with
  | .dict kvs =>
    match dictGet kvs "datetime" with
    | Option.none => .ok Option.none
    | some (.str s) =>
        let dt := s.take 10
        if dt = "" then .ok Option.none
        else .ok (some [("date", .str dt), ("open", objGetV kvs "open"),
          ("high", objGetV kvs "high"), ("low", objGetV kvs "low"),
          ("close", objGetV kvs "close"), ("volume", objGetV kvs "volume")])
    | some _ => .error .typeError
  | _ => .error .attributeError

/-- The `for v in values` loop of app.py lines 77–90. -/
def buildRows : List PyVal → Except PyErr (List Row)
  | [] => .ok []
  | v :: t => do
      let r ← buildRow v
      let rest ← buildRows t
      .ok (match r with | some row => row :: rest | Option.none => rest)

/-- Key extraction of `rows.sort(key=lambda r: r["date"])`: a missing
`date` key raises `KeyError`; a non-string date would be compared against
strings, which raises `TypeError` in Python 3. -/
def keyRows : List Row → Except PyErr (List (String × Row))
  | [] => .ok []
  | r :: t =>
    match dictGet r "date" with
    | some (.str s) => do
        let rest ← keyRows t
        .ok ((s, r) :: rest)
    | some _ => .error .typeError
    | Option.none => .error .keyError

/-- Lexicographic strict comparison of character lists by code point —
exactly how Python 3 compares the `date` strings in the sort key. -/
def charsLt : List Char → List Char → Bool
  | [], [] => false
  | [], _ :: _ => true
  | _ :: _, [] => false
  | a :: s, b :: t => if a = b then charsLt s t else Nat.blt a.toNat b.toNat

/-- Python's `<` on strings. -/
def strLt (a b : String) : Bool := charsLt a.toList b.toList

/-- Python's `<=` on strings. -/
def strLe (a b : String) : Bool := strLt a b || a == b

/-- Stable insertion of a keyed row: placed after every element whose key
is less than or equal to its own. -/
def insertSorted (p : String × Row) : List (String × Row) → List (String × Row)
  | [] => [p]
  | q :: t => if strLe q.1 p.1 then q :: insertSorted p t else p :: q :: t

/-- Insert every keyed row, in order, into the accumulator. -/
def insertAllRows : List (String × Row) → List (String × Row) → List (String × Row)
  | [], acc => acc
  | p :: t, acc => insertAllRows t (insertSorted p acc)

/-- `rows.sort(key=lambda r: r["date"])` (app.py lines 93 and 132): a
stable ascending sort on the date string.  Python's list sort is stable,
so any stable sort with the same key — here insertion sort — produces the
identical row order. -/
def sortRows (rows : List Row) : Except PyErr (List Row) := do
  let keyed ← keyRows rows
  .ok ((insertAllRows keyed []).map (·.2))

/-- The response-body half of `_fetch_history_for_symbol` (app.py lines
69–94), after a 2xx status: Twelve Data error check, `values` extraction
with `[]` default, row building, defensive sort.  A non-dict body raises
`AttributeError` at `data.get` exactly as in Python. -/
def fetchFromBody (data : PyVal) : Except PyErr (List Row) :=
  match data with
  | .dict kvs =>
    if statusIsError kvs then .error (.vendorError (objGetV kvs "message"))
    else
      match dictGet kvs "values" with
      | Option.none => sortRows []
      | some v => do
          let items ← pyIter v
          let rows ← buildRows items
          sortRows rows
  | _ => .error .attributeError

/-- Date of a row, for stating ordering properties (every row built by the
fetch has a string `date`). -/
def dateOf (r : Row) : String :=
  match dictGet r "date" with
  | some (.str s) => s
  | _ => ""

/-- The sequence of dates of a row list. -/
def datesOf (rows : List Row) : List String := rows.map dateOf

/-- The window slice of `_window_std` (app.py lines 112–113):
`values[max(0, end_idx - window + 1) : end_idx + 1]`, written with
truncated subtraction (`end_idx + 1 - window` is `max (end_idx + 1 - window) 0`). -/
def windowSlice (values : List (Option ℚ)) (end_idx window : ℕ) : List (Option ℚ) :=
  (values.take (end_idx + 1)).drop (end_idx + 1 - window)

/-- The non-`None` values of the window slice (app.py line 113). -/
def windowVals (values : List (Option ℚ)) (end_idx window : ℕ) : List ℚ :=
  (windowSlice values end_idx window).filterMap id

/-- The sample variance computed inside `_window_std` (app.py lines
114–118), i.e. the value of `var` just before `var ** 0.5`:  `None` when
fewer than 2 non-`None` values fall in the window. -/
def _window_var (values : List (Option ℚ)) (end_idx window : ℕ) : Option ℚ :=
  let slice := windowVals values end_idx window
  let n := slice.length
  if n < 2 then Option.none
  else
    let mean := slice.sum / (n : ℚ)
    some ((slice.map (fun v => (v - mean) ^ 2)).sum / ((n : ℚ) - 1))

/-- `_window_std` (app.py lines 110–119): the sample standard deviation
`var ** 0.5`.  Python's `** 0.5` is the nonnegative square root on the
nonnegative `var`, embedded as `Real.sqrt`. -/
noncomputable def _window_std (values : List (Option ℚ)) (end_idx window : ℕ) : Option ℝ :=
  (_window_var values end_idx window).map (fun q => Real.sqrt (q : ℝ))

/-- A nullable standard deviation stored into a row field. -/
noncomputable def stdVal (x : Option ℝ) : PyVal :=
  match x with
  | Option.none => .null
  | some v => .real v

/-- The `daily_return` loop (app.py lines 141–150) over rows zipped with
the precomputed `closes`, carrying `prev_close`.  Python computes
`c / prev_close` before the `None` update, so a zero previous close raises
`ZeroDivisionError`. -/
def dailyReturnAux (prev : Option ℚ) : List (Row × Option ℚ) → Except PyErr (List Row)
  | [] => .ok []
  | (r, c) :: t =>
    match c, prev with
    | some cv, some pv =>
        if pv = 0 then .error .zeroDivisionError
        else do
          let rest ← dailyReturnAux (some cv) t
          .ok (dictSet r "daily_return" (.num (cv / pv - 1)) :: rest)
    | some cv, Option.none => do
        let rest ← dailyReturnAux (some cv) t
        .ok (dictSet r "daily_return" .null :: rest)
    | Option.none, p => do
        let rest ← dailyReturnAux p t
        .ok (dictSet r "daily_return" .null :: rest)

/-- One rolling-volatility loop (app.py lines 153–160), with the running
index made explicit. -/
noncomputable def volAux (closes : List (Option ℚ)) (w : ℕ) (field : String) (i : ℕ) :
    List Row → List Row
  | [] => []
  | r :: t => dictSet r field (stdVal (_window_std closes i w)) :: volAux closes w field (i + 1) t

/-- A rolling-volatility pass starting at index 0. -/
noncomputable def volPass (rows : List Row) (closes : List (Option ℚ)) (w : ℕ)
    (field : String) : List Row :=
  volAux closes w field 0 rows

/-- The `price_gap` loop (app.py lines 163–172): `open - prev_close` with
the same previous-close pointer as `daily_return`; subtraction cannot
raise. -/
def priceGapAux (prev : Option ℚ) : List (Row × Option ℚ × Option ℚ) → List Row
  | [] => []
  | (r, o, c) :: t =>
    match o, prev with
    | some ov, some pv =>
        dictSet r "price_gap" (.num (ov - pv)) ::
          priceGapAux (match c with | some cv => some cv | Option.none => some pv) t
    | some _, Option.none =>
        dictSet r "price_gap" .null ::
          priceGapAux (match c with | some cv => some cv | Option.none => Option.none) t
    | Option.none, p =>
        dictSet r "price_gap" .null ::
          priceGapAux (match c with | some cv => some cv | Option.none => p) t

/-- The `volume_zscore` body for one index (app.py lines 176–192).  The
code guards on `std is None or std == 0`; since `std = sqrt var` with
`var ≥ 0`, that test is equivalent to `var = 0`, which keeps the branch
decidable (lemma `window_std_eq_zero_iff` below). -/
noncomputable def zscoreVal (volumes : List (Option ℚ)) (i : ℕ) (v : Option ℚ) : PyVal :=
  match v with
  | Option.none => .null
  | some vq =>
    match _window_var volumes i 20 with
    | Option.none => .null
    | some var =>
      if var = 0 then .null
      else
        let slice := windowVals volumes i 20
        if slice.length = 0 then .null
        else .real (((vq - slice.sum / (slice.length : ℚ) : ℚ) : ℝ) / Real.sqrt (var : ℝ))

/-- The `volume_zscore` loop with explicit index. -/
noncomputable def zscoreAux (volumes : List (Option ℚ)) (i : ℕ) :
    List (Row × Option ℚ) → List Row
  | [] => []
  | (r, v) :: t => dictSet r "volume_zscore" (zscoreVal volumes i v) :: zscoreAux volumes (i + 1) t

/-- The `volume_zscore` pass. -/
noncomputable def zscorePass (rows : List Row) (volumes : List (Option ℚ)) : List Row :=
  zscoreAux volumes 0 (rows.zip volumes)

/-- The `closes` array (app.py line 134): `_safe_float(r.get("close"))`. -/
def closesOf (rows : List Row) : List (Option ℚ) :=
  rows.map (fun r => _safe_float (objGetV r "close"))

/-- The `opens` array (app.py line 135). -/
def opensOf (rows : List Row) : List (Option ℚ) :=
  rows.map (fun r => _safe_float (objGetV r "open"))

/-- The `volumes` array (app.py line 136). -/
def volumesOf (rows : List Row) : List (Option ℚ) :=
  rows.map (fun r => _safe_float (objGetV r "volume"))

/-- `compute_derived_features` (app.py lines 122–194): empty-input early
return, defensive sort, the three value arrays read from the sorted rows,
then the five feature passes in source order, each gated on membership in
`derived_list`.  Only the `daily_return` pass can raise. -/
noncomputable def compute_derived_features (rows0 : List Row) (derived_list : List String) :
    Except PyErr (List Row) :=
  if rows0.isEmpty then .ok rows0
  else do
    let rows ← sortRows rows0
    let closes := closesOf rows
    let opens := opensOf rows
    let volumes := volumesOf rows
    let rows ← if "daily_return" ∈ derived_list then
        dailyReturnAux Option.none (rows.zip closes) else .ok rows
    let rows := if "rolling_volatility_5d" ∈ derived_list then
        volPass rows closes 5 "rolling_volatility_5d" else rows
    let rows := if "rolling_volatility_20d" ∈ derived_list then
        volPass rows closes 20 "rolling_volatility_20d" else rows
    let rows := if "price_gap" ∈ derived_list then
        priceGapAux Option.none (rows.zip (opens.zip closes)) else rows
    let rows := if "volume_zscore" ∈ derived_list then
        zscorePass rows volumes else rows
    .ok rows

/-- Spec-side wording (§4.2): the trailing window of size `W` ending at
index `i`, clipped at the sequence start — the last `W` entries of the
first `i + 1`. -/
def trailingWindow (l : List (Option ℚ)) (i w : ℕ) : List (Option ℚ) :=
  ((l.take (i + 1)).reverse.take w).reverse

/-- Spec-side wording: sample standard deviation of a list of values,
dividing the variance by `n - 1`; undefined (null) for fewer than two
values. -/
noncomputable def sampleStd (xs : List ℚ) : Option ℝ :=
  if xs.length < 2 then Option.none
  else some (Real.sqrt
    (((xs.map (fun x => (x - xs.sum / (xs.length : ℚ)) ^ 2)).sum / ((xs.length : ℚ) - 1) : ℚ)))

/-- Spec-side wording of `rolling_volatility_{W}d[i]`: sample standard
deviation of the non-null closes in the trailing window. -/
noncomputable def specRollingVol (values : List (Option ℚ)) (i w : ℕ) : Option ℝ :=
  sampleStd ((trailingWindow values i w).filterMap id)

/-- Spec-side wording (§4.2 `daily_return`): the most recent non-null
close strictly before index `i`; nulls do not reset the pointer. -/
def prevNonNullClose (closes : List (Option ℚ)) (i : ℕ) : Option ℚ :=
  ((closes.take i).filterMap id).getLast?

/-- Spec-side wording: the `daily_return` value the claim dictates at each
position, as a `PyVal`, threading the previous-close pointer from `prev`. -/
def drExpected (prev : Option ℚ) : List (Option ℚ) → List PyVal
  | [] => []
  | c :: t =>
    match c, prev with
    | some cv, some pv => PyVal.num (cv / pv - 1) :: drExpected (some cv) t
    | some cv, Option.none => PyVal.null :: drExpected (some cv) t
    | Option.none, p => PyVal.null :: drExpected p t

/-- Spec-side wording of the claimed `daily_return[i]`: `close[i]/p - 1`
with `p` the most recent non-null close strictly before `i`, null when
either side is missing. -/
def drSpec (closes : List (Option ℚ)) (i : ℕ) : PyVal :=
  match closes.getD i Option.none, prevNonNullClose closes i with
  | some c, some p => PyVal.num (c / p - 1)
  | _, _ => PyVal.null

/-- Decidable form of "every non-null coerced close is nonzero" — the
side condition under which the `daily_return` division cannot raise. -/
def closesNonzero (rows : List Row) : Bool :=
  rows.all (fun r => match _safe_float (objGetV r "close") with
    | some q => q != 0
    | Option.none => true)

/-- Decidable form of "every row carries a string `date`" — the side
condition under which the sort key extraction cannot raise. -/
def datesOk (rows : List Row) : Bool :=
  rows.all (fun r => match dictGet r "date" with
    | some (.str _) => true
    | _ => false)

/-- A per-date field mapping as returned by `fetch_indicator`: date →
(field → value), both insertion-ordered dicts. -/
abbrev IndDict := List (String × List (String × PyVal))

/-- Substring test, for Python's `"values" in data` when `data` is a
string. -/
def strHasSub (hay pat : List Char) : Bool :=
  match hay with
  | [] => pat.isEmpty
  | _ :: t => if pat.isPrefixOf hay then true else strHasSub t pat

/-- Membership of the string `"values"` in a Python list, as `in` tests it
(string equality against each element; `==` across types is `False`). -/
def hasValuesElem (xs : List PyVal) : Bool :=
  xs.any (fun v => match v with | .str s => s == "values" | _ => false)

/-- One `values` element of an indicator response (app.py lines 228–236):
`setdefault(dt, {})` then one prefixed assignment per non-`datetime` field,
in field order. -/
def indRow (name : String) (output : IndDict) (row : PyVal) : Except PyErr IndDict :=
  match row with
  | .dict rkvs =>
    match dictGet rkvs "datetime" with
    | Option.none => .ok output
    | some (.str s) =>
        let dt := s.take 10
        if dt = "" then .ok output
        else
          .ok (dictSet output dt
            (updFields ((dictGet output dt).getD [])
              ((rkvs.filter (fun kv => kv.1 ≠ "datetime")).map
                (fun kv => (name ++ "_" ++ kv.1, kv.2)))))
    | some _ => .error .typeError
  | _ => .error .attributeError

/-- The `for row in data["values"]` loop of `fetch_indicator`. -/
def indRows (name : String) (output : IndDict) : List PyVal → Except PyErr IndDict
  | [] => .ok output
  | row :: t => do
      let output ← indRow name output row
      indRows name output t

/-- The response-body half of `fetch_indicator` (app.py lines 219–238):
Twelve Data error check, `"values" not in data` short-circuit to an empty
mapping, then the per-row loop with `{indicator_name}_{field}` keys.
Non-dict bodies follow Python's `in` / indexing semantics. -/
def fetch_indicator (name : String) (data : PyVal) : Except PyErr IndDict :=
  match data with
  | .dict kvs =>
    if statusIsError kvs then .error (.vendorError (objGetV kvs "message"))
    else
      match dictGet kvs "values" with
      | Option.none => .ok []
      | some v => do
          let items ← pyIter v
          indRows name [] items
  | .listv xs => if hasValuesElem xs then .error .typeError else .ok []
  | .str s => if strHasSub s.toList "values".toList then .error .typeError else .ok []
  | _ => .error .typeError

/-- The flat list of `(indicator_name, params)` vendor calls issued by
`fetch_all_indicators` (app.py lines 251–272), in issue order: one call
per period for a config with a `periods` list (params = the single
`time_period` entry, other config keys dropped), otherwise one call with
the config dict itself (`None` and non-dict configs become `{}`).
Iterating a non-iterable `periods` raises, uncaught, as in Python. -/
def indCalls : List (String × PyVal) → Except PyErr (List (String × PyVal))
  | [] => .ok []
  | (name, cfg) :: t =>
    let cfg := match cfg with | .null => PyVal.dict [] | c => c
    match cfg with
    | .dict kvs =>
      if (dictGet kvs "periods").isSome then do
        let ps ← pyIter ((dictGet kvs "periods").getD .null)
        let rest ← indCalls t
        .ok (ps.map (fun p => (name, PyVal.dict [("time_period", p)])) ++ rest)
      else do
        let rest ← indCalls t
        .ok ((name, PyVal.dict kvs) :: rest)
    | _ => do
        let rest ← indCalls t
        .ok ((name, PyVal.dict []) :: rest)

/-- `combined.setdefault(dt, {}).update(feats)` over one call result
(app.py lines 263–264 and 274–275). -/
def mergeInto (combined : IndDict) : IndDict → IndDict
  | [] => combined
  | (dt, fs) :: t =>
      mergeInto (dictSet combined dt (updFields ((dictGet combined dt).getD []) fs)) t

/-- Execute the calls in order against an abstract vendor (`call` yields a
parsed result or the exception the bare `except: continue` swallows),
merging each successful result. -/
def runCalls (call : String → PyVal → Except Unit IndDict) (combined : IndDict) :
    List (String × PyVal) → IndDict
  | [] => combined
  | (n, p) :: t =>
    match call n p with
    | .error _ => runCalls call combined t
    | .ok res => runCalls call (mergeInto combined res) t

/-- `fetch_all_indicators` (app.py lines 241–277) over an abstract vendor:
the HTTP + parse step of each call is `call`; per-call failures are
skipped, and everything else folds into one per-date mapping. -/
def fetch_all_indicators (tech_cfg : List (String × PyVal))
    (call : String → PyVal → Except Unit IndDict) : Except PyErr IndDict := do
  let calls ← indCalls tech_cfg
  .ok (runCalls call [] calls)

/-- Two-level lookup `combined[dt][k]`. -/
def dictGet2 (d : IndDict) (dt k : String) : Option PyVal :=
  (dictGet d dt).bind (fun m => dictGet m k)

/-- The `(date, key, value)` writes a single call result performs, in
execution order. -/
def writesOf (res : IndDict) : List (String × String × PyVal) :=
  res.flatMap (fun p => p.2.map (fun kv => (p.1, kv.1, kv.2)))

/-- All writes performed across a call sequence, skipping failed calls. -/
def allWrites (call : String → PyVal → Except Unit IndDict) :
    List (String × PyVal) → List (String × String × PyVal)
  | [] => []
  | (n, p) :: t =>
    (match call n p with
     | .error _ => []
     | .ok res => writesOf res) ++ allWrites call t

/-- Spec-side wording of last-write-wins: the value of the latest write to
`(dt, k)`, if any. -/
def lastWrite (ws : List (String × String × PyVal)) (dt k : String) : Option PyVal :=
  (ws.reverse.find? (fun w => w.1 = dt && w.2.1 = k)).map (fun w => w.2.2)

/-- The indicator merge of `run_for_symbol` (app.py lines 335–340):
`r.update(indicator_dict.get(r["date"], {}))` per row, then the `symbol`
column.  A row with no `date` key raises `KeyError`; a non-string date is
simply absent from the (string-keyed) indicator dict. -/
def mergeIndicators (symbol : String) (ind : IndDict) : List Row → Except PyErr (List Row)
  | [] => .ok []
  | r :: t => do
      let r ← match dictGet r "date" with
        | Option.none => .error PyErr.keyError
        | some (.str d) => .ok (updFields r ((dictGet ind d).getD []))
        | some _ => .ok r
      let rest ← mergeIndicators symbol ind t
      .ok (dictSet r "symbol" (.str symbol) :: rest)

/-- The success record `run_for_symbol` returns (app.py lines 343–347). -/
structure RunRes where
  symbol : String
  rows : ℕ
  file : String

/-- The per-ticker try/except loop of `lambda_handler` (app.py lines
372–377) over an abstract per-symbol pipeline `outcome`: successes and
failure records accumulate in ticker order. -/
def runAll (outcome : String → Except String RunRes) :
    List String → List RunRes × List (String × String)
  | [] => ([], [])
  | s :: t =>
    let rest := runAll outcome t
    match outcome s with
    | .ok r => (r :: rest.1, rest.2)
    | .error e => (rest.1, (s, e) :: rest.2)

/-- The summary body of `lambda_handler` (app.py lines 379–385), minus the
date range. -/
structure Summary where
  tickers_count : ℕ
  success : List RunRes
  errors : List (String × String)

/-- `lambda_handler`'s aggregation (app.py lines 369–390): the run always
completes and returns the summary. -/
def lambda_handler (tickers : List String) (outcome : String → Except String RunRes) : Summary :=
  { tickers_count := tickers.length
    success := (runAll outcome tickers).1
    errors := (runAll outcome tickers).2 }

/-- The base OHLCV fields no later stage may overwrite. -/
def baseFields : List String := ["date", "open", "high", "low", "close", "volume"]

/-- The column of values a key takes across a row list. -/
def colOf (rows : List Row) (k : String) : List (Option PyVal) :=
  rows.map (fun r => dictGet r k)

/-- A fetch outcome that is a Twelve Data vendor error. -/
def isVendorError (e : Except PyErr (List Row)) : Prop :=
  ∃ m, e = .error (.vendorError m)

theorem dictGet_dictSet_self (kvs : List (String × α)) (k : String) (v : α) :
    dictGet (dictSet kvs k v) k = some v := by
  induction kvs with
  | nil => simp [dictGet, dictSet]
  | cons kv t ih =>
      by_cases h : kv.1 = k
      · simp [dictGet, dictSet, h]
      · simp [dictGet, dictSet, h, ih]

theorem dictGet_dictSet_ne (kvs : List (String × α)) (k k' : String) (v : α)
    (h : k ≠ k') : dictGet (dictSet kvs k v) k' = dictGet kvs k' := by
  induction kvs with
  | nil => simp [dictGet, dictSet, h]
  | cons kv t ih =>
      by_cases hk : kv.1 = k
      · simp [dictGet, dictSet, hk, h]
      · by_cases hk' : kv.1 = k'
        · simp [dictGet, dictSet, hk, hk', Ne.symm h]
        · simp [dictGet, dictSet, hk, hk', ih]

theorem dictGet_updFields_notMem (m : List (String × PyVal)) (fs : List (String × PyVal))
    (k : String) (h : ∀ kv ∈ fs, kv.1 ≠ k) :
    dictGet (updFields m fs) k = dictGet m k := by
  induction fs generalizing m with
  | nil => rfl
  | cons kv t ih =>
      have hkv : kv.1 ≠ k := h kv (by simp)
      rw [updFields, ih _ (fun x hx => h x (by simp [hx])), dictGet_dictSet_ne _ _ _ _ hkv]

theorem dictSet_dictSet_self (kvs : List (String × α)) (k : String) (v w : α) :
    dictSet (dictSet kvs k v) k w = dictSet kvs k w := by
  induction kvs with
  | nil => simp [dictSet]
  | cons kv t ih =>
      by_cases h : kv.1 = k
      · simp [dictSet, h]
      · simp [dictSet, h, ih]

theorem Char.toNat_ne_of_ne {a b : Char} (h : a ≠ b) : a.toNat ≠ b.toNat := by
  intro he
  apply h
  apply Char.ext
  apply UInt32.ext
  simpa [Char.toNat] using he

theorem charsLt_trans : ∀ {x y z : List Char},
    charsLt x y = true → charsLt y z = true → charsLt x z = true
  | [], [], _, h, _ => by cases h
  | [], _ :: _, [], _, h => by cases h
  | [], _ :: _, _ :: _, _, _ => rfl
  | _ :: _, [], _, h, _ => by cases h
  | _ :: _, _ :: _, [], _, h => by cases h
  | a :: s, b :: t, c :: u, h₁, h₂ => by
      by_cases hab : a = b
      · subst hab
        by_cases hbc : a = c
        · subst hbc
          simp only [charsLt, if_pos rfl] at h₁ h₂ ⊢
          exact charsLt_trans h₁ h₂
        · simp only [charsLt, if_pos rfl] at h₁
          simpa only [charsLt, if_neg hbc] using h₂
      · by_cases hbc : b = c
        · subst hbc
          simpa only [charsLt, if_neg hab] using h₁
        · simp only [charsLt, if_neg hab] at h₁
          simp only [charsLt, if_neg hbc] at h₂
          by_cases hac : a = c
          · subst hac
            exact absurd (Nat.lt_trans (Nat.blt_eq.mp h₁) (Nat.blt_eq.mp h₂))
              (Nat.lt_irrefl _)
          · simp only [charsLt, if_neg hac]
            exact Nat.blt_eq.mpr (Nat.lt_trans (Nat.blt_eq.mp h₁) (Nat.blt_eq.mp h₂))

theorem charsLt_total : ∀ {x y : List Char},
    x ≠ y → charsLt x y = true ∨ charsLt y x = true
  | [], [], h => absurd rfl h
  | [], _ :: _, _ => Or.inl rfl
  | _ :: _, [], _ => Or.inr rfl
  | a :: s, b :: t, h => by
      by_cases hab : a = b
      · subst hab
        have hst : s ≠ t := fun e => h (by rw [e])
        rcases charsLt_total hst with hl | hr
        · exact Or.inl (by simpa only [charsLt, if_pos rfl] using hl)
        · exact Or.inr (by simpa only [charsLt, if_pos rfl] using hr)
      · have hn := Char.toNat_ne_of_ne hab
        have hba : b ≠ a := fun e => hab (Eq.symm e)
        rcases Nat.lt_or_ge a.toNat b.toNat with hl | hg
        · exact Or.inl (by simp only [charsLt, if_neg hab]; exact Nat.blt_eq.mpr hl)
        · have hgt : b.toNat < a.toNat := Nat.lt_of_le_of_ne hg (fun e => hn (Eq.symm e))
          exact Or.inr (by
            simp only [charsLt, if_neg hba]
            exact Nat.blt_eq.mpr hgt)

theorem charsLt_irrefl : ∀ (x : List Char), charsLt x x = false
  | [] => rfl
  | _ :: s => by simpa only [charsLt, if_pos rfl] using charsLt_irrefl s

theorem strLt_irrefl (a : String) : strLt a a = false := charsLt_irrefl _

theorem strLe_refl (a : String) : strLe a a = true := by
  simp [strLe]

theorem string_toList_inj {a b : String} (h : a.toList = b.toList) : a = b := by
  cases a
  cases b
  exact congrArg String.mk h

theorem strLe_of_not_strLe {a b : String} (h : strLe a b = false) : strLe b a = true := by
  by_cases he : a = b
  · subst he
    rw [strLe_refl] at h
    cases h
  · have hl : a.toList ≠ b.toList := fun e => he (string_toList_inj e)
    rcases charsLt_total hl with hx | hx
    · have hx' : strLt a b = true := hx
      rw [strLe, hx'] at h
      cases h
    · have hx' : strLt b a = true := hx
      simp [strLe, hx']

theorem strLt_trans {a b c : String} (h₁ : strLt a b = true) (h₂ : strLt b c = true) :
    strLt a c = true := charsLt_trans h₁ h₂

theorem strLe_trans {a b c : String} (h₁ : strLe a b = true) (h₂ : strLe b c = true) :
    strLe a c = true := by
  rcases Bool.or_eq_true_iff.mp h₁ with hx | hx <;>
    rcases Bool.or_eq_true_iff.mp h₂ with hy | hy
  · exact Bool.or_eq_true_iff.mpr (Or.inl (strLt_trans hx hy))
  · have : b = c := by simpa using hy
    subst this
    exact h₁
  · have : a = b := by simpa using hx
    subst this
    exact h₂
  · have : b = c := by simpa using hy
    subst this
    exact h₁

theorem strLt_of_strLe_of_ne {a b : String} (h : strLe a b = true) (hne : a ≠ b) :
    strLt a b = true := by
  rcases Bool.or_eq_true_iff.mp h with hx | hx
  · exact hx
  · exact absurd (by simpa using hx) hne

theorem mem_insertSorted {x p : String × Row} : ∀ {l : List (String × Row)},
    x ∈ insertSorted p l ↔ x = p ∨ x ∈ l := by
  intro l
  induction l with
  | nil => simp [insertSorted]
  | cons q t ih =>
      by_cases h : strLe q.1 p.1
      · simp only [insertSorted, if_pos h, List.mem_cons, ih]
        tauto
      · simp only [insertSorted, if_neg h, List.mem_cons]

theorem length_insertSorted (p : String × Row) : ∀ (l : List (String × Row)),
    (insertSorted p l).length = l.length + 1 := by
  intro l
  induction l with
  | nil => rfl
  | cons q t ih =>
      by_cases h : strLe q.1 p.1
      · simp [insertSorted, if_pos h, ih]
      · simp [insertSorted, if_neg h]

theorem pairwise_insertSorted {p : String × Row} {l : List (String × Row)}
    (hl : l.Pairwise (fun a b => strLe a.1 b.1 = true)) :
    (insertSorted p l).Pairwise (fun a b => strLe a.1 b.1 = true) := by
  induction l with
  | nil => simp [insertSorted]
  | cons q t ih =>
      rcases List.pairwise_cons.mp hl with ⟨hq, ht⟩
      by_cases h : strLe q.1 p.1
      · rw [insertSorted, if_pos h]
        refine List.pairwise_cons.mpr ⟨?_, ih ht⟩
        intro x hx
        rcases mem_insertSorted.mp hx with hxe | hxm
        · rw [hxe]; exact h
        · exact hq x hxm
      · rw [insertSorted, if_neg h]
        refine List.pairwise_cons.mpr ⟨?_, hl⟩
        intro x hx
        have hp : strLe p.1 q.1 = true := strLe_of_not_strLe (Bool.eq_false_iff.mpr h)
        rcases List.mem_cons.mp hx with hxe | hxm
        · rw [hxe]; exact hp
        · exact strLe_trans hp (hq x hxm)

theorem insertSorted_append {p : String × Row} : ∀ {l : List (String × Row)},
    (∀ q ∈ l, strLe q.1 p.1 = true) → insertSorted p l = l ++ [p] := by
  intro l
  induction l with
  | nil => intro _; rfl
  | cons q t ih =>
      intro h
      rw [insertSorted, if_pos (h q (by simp)), ih (fun x hx => h x (by simp [hx]))]
      rfl

theorem mem_insertAllRows {x : String × Row} : ∀ {l acc : List (String × Row)},
    x ∈ insertAllRows l acc ↔ x ∈ l ∨ x ∈ acc := by
  intro l
  induction l with
  | nil => simp [insertAllRows]
  | cons p t ih =>
      intro acc
      rw [insertAllRows, ih]
      simp only [List.mem_cons, mem_insertSorted]
      tauto

theorem length_insertAllRows : ∀ (l acc : List (String × Row)),
    (insertAllRows l acc).length = l.length + acc.length := by
  intro l
  induction l with
  | nil => intro acc; simp [insertAllRows]
  | cons p t ih =>
      intro acc
      rw [insertAllRows, ih, length_insertSorted]
      simp only [List.length_cons]
      omega

theorem pairwise_insertAllRows : ∀ {l acc : List (String × Row)},
    acc.Pairwise (fun a b => strLe a.1 b.1 = true) →
    (insertAllRows l acc).Pairwise (fun a b => strLe a.1 b.1 = true) := by
  intro l
  induction l with
  | nil => intro acc h; exact h
  | cons p t ih =>
      intro acc h
      exact ih (pairwise_insertSorted h)

theorem insertAllRows_sorted_id : ∀ {l acc : List (String × Row)},
    (acc ++ l).Pairwise (fun a b => strLe a.1 b.1 = true) →
    insertAllRows l acc = acc ++ l := by
  intro l
  induction l with
  | nil => intro acc _; simp [insertAllRows]
  | cons p t ih =>
      intro acc h
      have hacc : ∀ q ∈ acc, strLe q.1 p.1 = true := by
        intro q hq
        exact (List.pairwise_append.mp h).2.2 q hq p (by simp)
      rw [insertAllRows, insertSorted_append hacc]
      have h' : ((acc ++ [p]) ++ t).Pairwise (fun a b => strLe a.1 b.1 = true) := by
        simpa using h
      rw [ih h']
      simp

theorem keyRows_pair_date : ∀ {rows : List Row} {keyed : List (String × Row)},
    keyRows rows = .ok keyed → ∀ p ∈ keyed, dictGet p.2 "date" = some (.str p.1) := by
  intro rows
  induction rows with
  | nil =>
      intro keyed h p hp
      cases h
      cases hp
  | cons r t ih =>
      intro keyed h p hp
      rw [keyRows] at h
      cases hd : dictGet r "date" with
      | none => rw [hd] at h; cases h
      | some v =>
          cases v with
          | str s =>
              rw [hd] at h
              cases hr : keyRows t with
              | error e => rw [hr] at h; cases h
              | ok rest =>
                  rw [hr] at h
                  cases h
                  rcases List.mem_cons.mp hp with he | hm
                  · rw [he]; exact hd
                  · exact ih hr p hm
          | null => rw [hd] at h; cases h
          | bool b => rw [hd] at h; cases h
          | num q => rw [hd] at h; cases h
          | real x => rw [hd] at h; cases h
          | listv xs => rw [hd] at h; cases h
          | dict kvs => rw [hd] at h; cases h

theorem keyRows_map_snd : ∀ {rows : List Row} {keyed : List (String × Row)},
    keyRows rows = .ok keyed → keyed.map (·.2) = rows := by
  intro rows
  induction rows with
  | nil => intro keyed h; cases h; rfl
  | cons r t ih =>
      intro keyed h
      rw [keyRows] at h
      cases hd : dictGet r "date" with
      | none => rw [hd] at h; cases h
      | some v =>
          cases v with
          | str s =>
              rw [hd] at h
              cases hr : keyRows t with
              | error e => rw [hr] at h; cases h
              | ok rest =>
                  rw [hr] at h
                  cases h
                  simp [ih hr]
          | null => rw [hd] at h; cases h
          | bool b => rw [hd] at h; cases h
          | num q => rw [hd] at h; cases h
          | real x => rw [hd] at h; cases h
          | listv xs => rw [hd] at h; cases h
          | dict kvs => rw [hd] at h; cases h

theorem keyRows_ok_of_dates : ∀ {rows : List Row},
    (∀ r ∈ rows, dictGet r "date" = some (.str (dateOf r))) →
    keyRows rows = .ok (rows.map (fun r => (dateOf r, r))) := by
  intro rows
  induction rows with
  | nil => intro _; rfl
  | cons r t ih =>
      intro h
      have hr := h r (by simp)
      rw [keyRows, hr, ih (fun x hx => h x (by simp [hx]))]
      rfl

theorem datesOk_date_str {rows : List Row} (h : datesOk rows = true) :
    ∀ r ∈ rows, dictGet r "date" = some (.str (dateOf r)) := by
  intro r hr
  have := (List.all_eq_true.mp h) r hr
  cases hd : dictGet r "date" with
  | none => rw [hd] at this; cases this
  | some v =>
      cases v with
      | str s => rw [dateOf, hd]
      | null => rw [hd] at this; cases this
      | bool b => rw [hd] at this; cases this
      | num q => rw [hd] at this; cases this
      | real x => rw [hd] at this; cases this
      | listv xs => rw [hd] at this; cases this
      | dict kvs => rw [hd] at this; cases this

theorem sortRows_inv {rows out : List Row} (h : sortRows rows = .ok out) :
    ∃ keyed, keyRows rows = .ok keyed ∧ out = (insertAllRows keyed []).map (·.2) := by
  rw [sortRows] at h
  cases hk : keyRows rows with
  | error e =>
      rw [hk] at h
      cases h
  | ok keyed =>
      rw [hk] at h
      refine ⟨keyed, rfl, ?_⟩
      cases h
      rfl

theorem sortRows_mem {rows out : List Row} (h : sortRows rows = .ok out) :
    ∀ r ∈ out, r ∈ rows := by
  rcases sortRows_inv h with ⟨keyed, hk, ho⟩
  intro r hr
  rw [ho] at hr
  rcases List.mem_map.mp hr with ⟨p, hp, hpr⟩
  have hpk : p ∈ keyed := (mem_insertAllRows.mp hp).elim id (by intro hx; cases hx)
  rw [← keyRows_map_snd hk, ← hpr]
  exact List.mem_map.mpr ⟨p, hpk, rfl⟩

theorem sortRows_length {rows out : List Row} (h : sortRows rows = .ok out) :
    out.length = rows.length := by
  rcases sortRows_inv h with ⟨keyed, hk, ho⟩
  rw [ho, List.length_map, length_insertAllRows]
  have := keyRows_map_snd hk
  calc keyed.length + ([] : List (String × Row)).length
      = keyed.length := by simp
    _ = (keyed.map (·.2)).length := by rw [List.length_map]
    _ = rows.length := by rw [this]

theorem sortRows_dates_eq_keys {rows out : List Row} (h : sortRows rows = .ok out) :
    ∃ keyed, keyRows rows = .ok keyed ∧
      datesOf out = (insertAllRows keyed []).map (·.1) ∧
      out = (insertAllRows keyed []).map (·.2) := by
  rcases sortRows_inv h with ⟨keyed, hk, ho⟩
  refine ⟨keyed, hk, ?_, ho⟩
  rw [ho, datesOf, List.map_map]
  refine List.map_congr_left ?_
  intro p hp
  have hpk : p ∈ keyed := (mem_insertAllRows.mp hp).elim id (by intro hx; cases hx)
  have := keyRows_pair_date hk p hpk
  simp [Function.comp, dateOf, this]

theorem sortRows_sorted {rows out : List Row} (h : sortRows rows = .ok out) :
    (datesOf out).Pairwise (fun a b => strLe a b = true) := by
  rcases sortRows_dates_eq_keys h with ⟨keyed, hk, hd, _⟩
  rw [hd]
  rw [List.pairwise_map]
  exact pairwise_insertAllRows (by simp)

theorem sortRows_date_str {rows out : List Row} (h : sortRows rows = .ok out) :
    ∀ r ∈ out, dictGet r "date" = some (.str (dateOf r)) := by
  rcases sortRows_inv h with ⟨keyed, hk, ho⟩
  intro r hr
  rw [ho] at hr
  rcases List.mem_map.mp hr with ⟨p, hp, hpr⟩
  have hpk : p ∈ keyed := (mem_insertAllRows.mp hp).elim id (by intro hx; cases hx)
  have hpd := keyRows_pair_date hk p hpk
  have h2 : dateOf p.2 = p.1 := by rw [dateOf, hpd]
  rw [← hpr, h2]
  exact hpd

theorem sortRows_idem {rows out : List Row} (h : sortRows rows = .ok out) :
    sortRows out = .ok out := by
  have hdates := sortRows_date_str h
  have hkey : keyRows out = .ok (out.map (fun r => (dateOf r, r))) :=
    keyRows_ok_of_dates hdates
  have hsorted : (out.map (fun r => (dateOf r, r))).Pairwise
      (fun a b => strLe a.1 b.1 = true) := by
    rw [List.pairwise_map]
    have := sortRows_sorted h
    rw [datesOf, List.pairwise_map] at this
    exact this
  have hid : insertAllRows (out.map (fun r => (dateOf r, r))) [] =
      out.map (fun r => (dateOf r, r)) := by
    have := @insertAllRows_sorted_id (out.map (fun r => (dateOf r, r))) []
      (by simpa using hsorted)
    simpa using this
  rw [sortRows, hkey]
  show Except.ok _ = _
  rw [hid, List.map_map]
  have hc : ((fun x : String × Row => x.2) ∘ fun r : Row => (dateOf r, r)) =
      fun r : Row => r := rfl
  rw [hc]
  simp

theorem closesNonzero_spec {rows : List Row} (h : closesNonzero rows = true) :
    ∀ c ∈ closesOf rows, ∀ q, c = some q → q ≠ 0 := by
  intro c hc q hq
  rcases List.mem_map.mp hc with ⟨r, hr, hrc⟩
  have := (List.all_eq_true.mp h) r hr
  rw [← hrc] at hq
  rw [hq] at this
  simpa using this

theorem exbind_ok {α β : Type} {x : Except PyErr α} {a : α} (h : x = .ok a)
    (f : α → Except PyErr β) : (do let y ← x; f y) = f a := by
  rw [h]
  rfl

theorem dailyReturnAux_ok {l : List (Row × Option ℚ)} {prev : Option ℚ}
    (hprev : ∀ q, prev = some q → q ≠ 0)
    (hcl : ∀ rc ∈ l, ∀ q, rc.2 = some q → q ≠ 0) :
    ∃ out, dailyReturnAux prev l = .ok out ∧
      out.length = l.length ∧
      (∀ k, k ≠ "daily_return" → colOf out k = colOf (l.map (·.1)) k) ∧
      colOf out "daily_return" = (drExpected prev (l.map (·.2))).map some := by
  induction l generalizing prev with
  | nil => exact ⟨[], rfl, rfl, fun k _ => rfl, rfl⟩
  | cons rc t ih =>
      obtain ⟨r, c⟩ := rc
      have hct : ∀ rc ∈ t, ∀ q, rc.2 = some q → q ≠ 0 :=
        fun rc hrc => hcl rc (by simp [hrc])
      cases hc : c with
      | none =>
          rcases ih hprev hct with ⟨out, hout, hlen, hne, hdr⟩
          refine ⟨dictSet r "daily_return" .null :: out, ?_, by simp [hlen], ?_, ?_⟩
          · show (do let rest ← dailyReturnAux prev t
                     Except.ok (dictSet r "daily_return" PyVal.null :: rest)) = _
            rw [exbind_ok hout]
          · intro k hk
            simp only [colOf, List.map_cons]
            rw [dictGet_dictSet_ne _ _ _ _ (fun e => hk e.symm)]
            exact congrArg _ (hne k hk)
          · simp only [colOf, List.map_cons]
            rw [dictGet_dictSet_self]
            show _ :: _ = (drExpected prev (Option.none :: t.map (·.2))).map some
            rw [drExpected]
            rw [List.map_cons]
            exact congrArg _ hdr
      | some cv =>
          have hprev2 : ∀ q, (some cv : Option ℚ) = some q → q ≠ 0 := by
            intro q hq
            have := hcl (r, c) (by simp) q
            rw [hc] at this
            exact this hq
          rcases ih hprev2 hct with ⟨out, hout, hlen, hne, hdr⟩
          cases hp : prev with
          | none =>
              refine ⟨dictSet r "daily_return" .null :: out, ?_, by simp [hlen], ?_, ?_⟩
              · show (do let rest ← dailyReturnAux (some cv) t
                         Except.ok (dictSet r "daily_return" PyVal.null :: rest)) = _
                rw [exbind_ok hout]
              · intro k hk
                simp only [colOf, List.map_cons]
                rw [dictGet_dictSet_ne _ _ _ _ (fun e => hk e.symm)]
                exact congrArg _ (hne k hk)
              · simp only [colOf, List.map_cons]
                rw [dictGet_dictSet_self]
                show _ :: _ = (drExpected Option.none (some cv :: t.map (·.2))).map some
                rw [drExpected]
                rw [List.map_cons]
                exact congrArg _ hdr
          | some pv =>
              have hpv : pv ≠ 0 := hprev pv (by rw [hp])
              refine ⟨dictSet r "daily_return" (.num (cv / pv - 1)) :: out, ?_,
                by simp [hlen], ?_, ?_⟩
              · show (if pv = 0 then Except.error PyErr.zeroDivisionError else
                      do let rest ← dailyReturnAux (some cv) t
                         Except.ok (dictSet r "daily_return" (PyVal.num (cv / pv - 1)) :: rest)) = _
                rw [if_neg hpv, exbind_ok hout]
              · intro k hk
                simp only [colOf, List.map_cons]
                rw [dictGet_dictSet_ne _ _ _ _ (fun e => hk e.symm)]
                exact congrArg _ (hne k hk)
              · simp only [colOf, List.map_cons]
                rw [dictGet_dictSet_self]
                show _ :: _ = (drExpected (some pv) (some cv :: t.map (·.2))).map some
                rw [drExpected]
                rw [List.map_cons]
                exact congrArg _ hdr

theorem volAux_length (closes : List (Option ℚ)) (w : ℕ) (field : String) :
    ∀ (i : ℕ) (l : List Row), (volAux closes w field i l).length = l.length := by
  intro i l
  induction l generalizing i with
  | nil => rfl
  | cons r t ih => simp [volAux, ih]

theorem volAux_colOf_ne (closes : List (Option ℚ)) (w : ℕ) (field k : String)
    (hk : k ≠ field) :
    ∀ (i : ℕ) (l : List Row), colOf (volAux closes w field i l) k = colOf l k := by
  intro i l
  induction l generalizing i with
  | nil => rfl
  | cons r t ih =>
      simp only [volAux, colOf, List.map_cons]
      rw [dictGet_dictSet_ne _ _ _ _ (fun e => hk e.symm)]
      exact congrArg _ (ih (i + 1))

theorem volAux_colOf_field (closes : List (Option ℚ)) (w : ℕ) (field : String) :
    ∀ (i : ℕ) (l : List Row), colOf (volAux closes w field i l) field =
      (List.range l.length).map (fun j => some (stdVal (_window_std closes (i + j) w))) := by
  intro i l
  induction l generalizing i with
  | nil => rfl
  | cons r t ih =>
      simp only [volAux, colOf, List.map_cons, List.length_cons]
      rw [dictGet_dictSet_self]
      rw [List.range_succ_eq_map, List.map_cons, List.map_map]
      refine congrArg₂ _ (by rw [Nat.add_zero]) ?_
      have hih := ih (i + 1)
      simp only [colOf] at hih
      rw [hih]
      refine List.map_congr_left ?_
      intro j hj
      simp only [Function.comp]
      have harith : i + 1 + j = i + Nat.succ j := by omega
      rw [harith]

theorem priceGapAux_length (prev : Option ℚ) (l : List (Row × Option ℚ × Option ℚ)) :
    (priceGapAux prev l).length = l.length := by
  induction l generalizing prev with
  | nil => rfl
  | cons x t ih =>
      obtain ⟨r, o, c⟩ := x
      cases o <;> cases prev <;> cases c <;> simp [priceGapAux, ih]

theorem priceGapAux_colOf_ne (k : String) (hk : k ≠ "price_gap") :
    ∀ (prev : Option ℚ) (l : List (Row × Option ℚ × Option ℚ)),
      colOf (priceGapAux prev l) k = colOf (l.map (·.1)) k := by
  intro prev l
  induction l generalizing prev with
  | nil => rfl
  | cons x t ih =>
      obtain ⟨r, o, c⟩ := x
      have hr : ∀ v, dictGet (dictSet r "price_gap" v) k = dictGet r k :=
        fun v => dictGet_dictSet_ne _ _ _ _ (fun e => hk e.symm)
      have ih' : ∀ p : Option ℚ, List.map (fun r => dictGet r k) (priceGapAux p t) =
          List.map (fun r => dictGet r k) (t.map (·.1)) := by
        intro p
        have := ih p
        simpa only [colOf] using this
      cases o <;> cases prev <;> cases c <;>
        simp only [priceGapAux, colOf, List.map_cons, hr, ih']

theorem zscoreAux_length (volumes : List (Option ℚ)) :
    ∀ (i : ℕ) (l : List (Row × Option ℚ)), (zscoreAux volumes i l).length = l.length := by
  intro i l
  induction l generalizing i with
  | nil => rfl
  | cons x t ih =>
      obtain ⟨r, v⟩ := x
      simp [zscoreAux, ih]

theorem zscoreAux_colOf_ne (volumes : List (Option ℚ)) (k : String)
    (hk : k ≠ "volume_zscore") :
    ∀ (i : ℕ) (l : List (Row × Option ℚ)),
      colOf (zscoreAux volumes i l) k = colOf (l.map (·.1)) k := by
  intro i l
  induction l generalizing i with
  | nil => rfl
  | cons x t ih =>
      obtain ⟨r, v⟩ := x
      simp only [zscoreAux, colOf, List.map_cons]
      rw [dictGet_dictSet_ne _ _ _ _ (fun e => hk e.symm)]
      exact congrArg _ (ih (i + 1))

theorem stageDaily_ok {rows : List Row} {dl : List String}
    (hz : closesNonzero rows = true) :
    ∃ rows1, (if "daily_return" ∈ dl then
        dailyReturnAux Option.none (rows.zip (closesOf rows)) else .ok rows) = .ok rows1 ∧
      rows1.length = rows.length ∧
      (∀ k, k ≠ "daily_return" → colOf rows1 k = colOf rows k) ∧
      ("daily_return" ∈ dl →
        colOf rows1 "daily_return" = (drExpected Option.none (closesOf rows)).map some) := by
  by_cases hdr : "daily_return" ∈ dl
  · rw [if_pos hdr]
    have hlen : (closesOf rows).length = rows.length := List.length_map _ _
    have hcl : ∀ rc ∈ rows.zip (closesOf rows), ∀ q, rc.2 = some q → q ≠ 0 := by
      intro rc hrc q hq
      have hm := List.of_mem_zip hrc
      exact closesNonzero_spec hz rc.2 hm.2 q hq
    rcases @dailyReturnAux_ok (rows.zip (closesOf rows)) Option.none
      (by intro q h; cases h) hcl with
      ⟨out, hout, hl, hne, hdr'⟩
    have hfst : (rows.zip (closesOf rows)).map (·.1) = rows :=
      List.map_fst_zip _ _ (by rw [hlen])
    have hsnd : (rows.zip (closesOf rows)).map (·.2) = closesOf rows :=
      List.map_snd_zip _ _ (by rw [hlen])
    refine ⟨out, hout, ?_, ?_, fun _ => ?_⟩
    · rw [hl, List.length_zip, hlen, Nat.min_self]
    · intro k hk
      rw [hne k hk, hfst]
    · rw [hdr', hsnd]
  · exact ⟨rows, if_neg hdr, rfl, fun _ _ => rfl, fun h => absurd h hdr⟩

theorem compute_ok {rows : List Row} {dl : List String}
    (hs : sortRows rows = .ok rows)
    (hz : closesNonzero rows = true) :
    ∃ out, compute_derived_features rows dl = .ok out ∧
      out.length = rows.length ∧
      (∀ k, k ≠ "daily_return" → k ≠ "rolling_volatility_5d" → k ≠ "rolling_volatility_20d" →
        k ≠ "price_gap" → k ≠ "volume_zscore" → colOf out k = colOf rows k) ∧
      ("daily_return" ∈ dl →
        colOf out "daily_return" = (drExpected Option.none (closesOf rows)).map some) ∧
      ("rolling_volatility_5d" ∈ dl →
        colOf out "rolling_volatility_5d" =
          (List.range rows.length).map (fun i => some (stdVal (_window_std (closesOf rows) i 5)))) ∧
      ("rolling_volatility_20d" ∈ dl →
        colOf out "rolling_volatility_20d" =
          (List.range rows.length).map (fun i => some (stdVal (_window_std (closesOf rows) i 20)))) := by
  by_cases hemp : rows.isEmpty
  · have hnil : rows = [] := List.isEmpty_iff.mp hemp
    subst hnil
    exact ⟨[], rfl, rfl, fun _ _ _ _ _ _ => rfl, fun _ => rfl, fun _ => rfl, fun _ => rfl⟩
  · rcases @stageDaily_ok rows dl hz with ⟨rows1, h1, len1, ne1, dr1⟩
    set rows2 := (if "rolling_volatility_5d" ∈ dl then
      volPass rows1 (closesOf rows) 5 "rolling_volatility_5d" else rows1) with hrows2
    set rows3 := (if "rolling_volatility_20d" ∈ dl then
      volPass rows2 (closesOf rows) 20 "rolling_volatility_20d" else rows2) with hrows3
    set rows4 := (if "price_gap" ∈ dl then
      priceGapAux Option.none (rows3.zip ((opensOf rows).zip (closesOf rows))) else rows3)
      with hrows4
    set rows5 := (if "volume_zscore" ∈ dl then
      zscorePass rows4 (volumesOf rows) else rows4) with hrows5
    have len2 : rows2.length = rows.length := by
      rw [hrows2]
      by_cases h : "rolling_volatility_5d" ∈ dl
      · rw [if_pos h, volPass, volAux_length, len1]
      · rw [if_neg h, len1]
    have len3 : rows3.length = rows.length := by
      rw [hrows3]
      by_cases h : "rolling_volatility_20d" ∈ dl
      · rw [if_pos h, volPass, volAux_length, len2]
      · rw [if_neg h, len2]
    have len4 : rows4.length = rows.length := by
      rw [hrows4]
      by_cases h : "price_gap" ∈ dl
      · rw [if_pos h, priceGapAux_length, List.length_zip, List.length_zip]
        rw [opensOf, closesOf, List.length_map, List.length_map, len3, Nat.min_self,
          Nat.min_self]
      · rw [if_neg h, len3]
    have len5 : rows5.length = rows.length := by
      rw [hrows5]
      by_cases h : "volume_zscore" ∈ dl
      · rw [if_pos h, zscorePass, zscoreAux_length, List.length_zip, volumesOf,
          List.length_map, len4, Nat.min_self]
      · rw [if_neg h, len4]
    have ne2 : ∀ k, k ≠ "rolling_volatility_5d" → colOf rows2 k = colOf rows1 k := by
      intro k hk
      rw [hrows2]
      by_cases h : "rolling_volatility_5d" ∈ dl
      · rw [if_pos h, volPass, volAux_colOf_ne _ _ _ _ hk]
      · rw [if_neg h]
    have ne3 : ∀ k, k ≠ "rolling_volatility_20d" → colOf rows3 k = colOf rows2 k := by
      intro k hk
      rw [hrows3]
      by_cases h : "rolling_volatility_20d" ∈ dl
      · rw [if_pos h, volPass, volAux_colOf_ne _ _ _ _ hk]
      · rw [if_neg h]
    have ne4 : ∀ k, k ≠ "price_gap" → colOf rows4 k = colOf rows3 k := by
      intro k hk
      rw [hrows4]
      by_cases h : "price_gap" ∈ dl
      · rw [if_pos h, priceGapAux_colOf_ne _ hk, List.map_fst_zip]
        rw [List.length_zip, opensOf, closesOf, List.length_map, List.length_map, len3,
          Nat.min_self]
      · rw [if_neg h]
    have ne5 : ∀ k, k ≠ "volume_zscore" → colOf rows5 k = colOf rows4 k := by
      intro k hk
      rw [hrows5]
      by_cases h : "volume_zscore" ∈ dl
      · rw [if_pos h, zscorePass, zscoreAux_colOf_ne _ _ hk, List.map_fst_zip]
        rw [volumesOf, List.length_map, len4]
      · rw [if_neg h]
    have hc : compute_derived_features rows dl = .ok rows5 := by
      rw [compute_derived_features, if_neg hemp, exbind_ok hs]
      simp only []
      by_cases hdr : "daily_return" ∈ dl
      · rw [if_pos hdr] at h1 ⊢
        rw [exbind_ok h1]
      · rw [if_neg hdr] at h1 ⊢
        rw [exbind_ok h1]
    refine ⟨rows5, hc, len5, ?_, ?_, ?_, ?_⟩
    · intro k h₁ h₂ h₃ h₄ h₅
      rw [ne5 k h₅, ne4 k h₄, ne3 k h₃, ne2 k h₂, ne1 k h₁]
    · intro hmem
      rw [ne5 _ (by decide), ne4 _ (by decide), ne3 _ (by decide), ne2 _ (by decide),
        dr1 hmem]
    · intro hmem
      rw [ne5 _ (by decide), ne4 _ (by decide), ne3 _ (by decide)]
      rw [hrows2, if_pos hmem, volPass, volAux_colOf_field, len1]
      refine List.map_congr_left ?_
      intro j hj
      rw [Nat.zero_add]
    · intro hmem
      rw [ne5 _ (by decide), ne4 _ (by decide)]
      rw [hrows3, if_pos hmem, volPass, volAux_colOf_field, len2]
      refine List.map_congr_left ?_
      intro j hj
      rw [Nat.zero_add]

theorem trailingWindow_eq_windowSlice {values : List (Option ℚ)} {i w : ℕ}
    (hi : i < values.length) :
    trailingWindow values i w = windowSlice values i w := by
  rw [trailingWindow, windowSlice, ← List.rtake_eq_reverse_take_reverse, List.rtake]
  have hlen : (values.take (i + 1)).length = i + 1 := by
    rw [List.length_take]
    omega
  rw [hlen]

theorem windowSlice_take (values : List (Option ℚ)) (i w : ℕ) :
    windowSlice (values.take (i + 1)) i w = windowSlice values i w := by
  rw [windowSlice, windowSlice, List.take_take, Nat.min_self]

theorem window_std_take (values : List (Option ℚ)) (i w : ℕ) :
    _window_std (values.take (i + 1)) i w = _window_std values i w := by
  simp only [_window_std, _window_var, windowVals, windowSlice_take]

theorem window_std_spec {values : List (Option ℚ)} {i w : ℕ} (hi : i < values.length) :
    _window_std values i w = specRollingVol values i w := by
  rw [specRollingVol, trailingWindow_eq_windowSlice hi, sampleStd, _window_std, _window_var,
    windowVals]
  simp only []
  by_cases h : ((windowSlice values i w).filterMap id).length < 2
  · rw [if_pos h, if_pos h]
    rfl
  · rw [if_neg h, if_neg h]
    rfl

theorem window_std_none_iff (values : List (Option ℚ)) (i w : ℕ) :
    _window_std values i w = Option.none ↔ (windowVals values i w).length < 2 := by
  rw [_window_std, _window_var]
  simp only []
  by_cases h : (windowVals values i w).length < 2
  · rw [if_pos h]
    simp [h]
  · rw [if_neg h]
    simp [h]

theorem window_var_nonneg {values : List (Option ℚ)} {i w : ℕ} {q : ℚ}
    (h : _window_var values i w = some q) : 0 ≤ q := by
  rw [_window_var] at h
  simp only [] at h
  by_cases hn : (windowVals values i w).length < 2
  · rw [if_pos hn] at h
    cases h
  · rw [if_neg hn] at h
    have hq := Option.some_injective _ h.symm
    rw [hq]
    apply div_nonneg
    · apply List.sum_nonneg
      intro x hx
      rcases List.mem_map.mp hx with ⟨v, _, hv⟩
      rw [← hv]
      positivity
    · have : 2 ≤ (windowVals values i w).length := Nat.le_of_not_lt hn
      have : (2 : ℚ) ≤ ((windowVals values i w).length : ℚ) := by exact_mod_cast this
      linarith

/-- The `std == 0` test of the z-score loop is equivalent to `var = 0`:
the variance is nonnegative, and `Real.sqrt` vanishes on it exactly at 0.
This justifies the decidable `var = 0` guard used in `zscoreVal`. -/
theorem window_std_eq_zero_iff {values : List (Option ℚ)} {i w : ℕ} {q : ℚ}
    (h : _window_var values i w = some q) :
    (Real.sqrt (q : ℝ) = 0 ↔ q = 0) := by
  have hq : 0 ≤ q := window_var_nonneg h
  rw [Real.sqrt_eq_zero (by exact_mod_cast hq)]
  exact_mod_cast Iff.rfl

theorem exbind_error {α β : Type} {e : PyErr} {x : Except PyErr α} (h : x = .error e)
    (f : α → Except PyErr β) : (do let y ← x; f y) = .error e := by
  rw [h]
  rfl

theorem fetch_status_error {kvs : List (String × PyVal)} (h : statusIsError kvs = true) :
    fetchFromBody (.dict kvs) = .error (.vendorError (objGetV kvs "message")) := by
  rw [fetchFromBody, if_pos h]

theorem fetch_no_values {kvs : List (String × PyVal)} (h : statusIsError kvs = false)
    (hv : dictGet kvs "values" = Option.none) :
    fetchFromBody (.dict kvs) = .ok [] := by
  rw [fetchFromBody, if_neg (by rw [h]; exact Bool.false_ne_true), hv]
  rfl

theorem fetch_values_not_iterable {kvs : List (String × PyVal)} {v : PyVal}
    (h : statusIsError kvs = false) (hv : dictGet kvs "values" = some v)
    (hit : pyIter v = .error .typeError) :
    fetchFromBody (.dict kvs) = .error .typeError := by
  rw [fetchFromBody, if_neg (by rw [h]; exact Bool.false_ne_true), hv]
  exact exbind_error hit _

theorem fetchFromBody_sortRows {data : PyVal} {rs : List Row}
    (h : fetchFromBody data = .ok rs) : ∃ rows, sortRows rows = .ok rs := by
  cases data with
  | dict kvs =>
      rw [fetchFromBody] at h
      by_cases hst : statusIsError kvs
      · rw [if_pos hst] at h
        cases h
      · rw [if_neg hst] at h
        cases hv : dictGet kvs "values" with
        | none =>
            rw [hv] at h
            exact ⟨[], h⟩
        | some v =>
            rw [hv] at h
            simp only [] at h
            cases hit : pyIter v with
            | error e =>
                rw [exbind_error hit] at h
                cases h
            | ok items =>
                rw [exbind_ok hit] at h
                cases hb : buildRows items with
                | error e =>
                    rw [exbind_error hb] at h
                    cases h
                | ok rows =>
                    rw [exbind_ok hb] at h
                    exact ⟨rows, h⟩
  | null => cases h
  | bool b => cases h
  | str s => cases h
  | num q => cases h
  | real x => cases h
  | listv xs => cases h

theorem fetchFromBody_sorted {data : PyVal} {rs : List Row}
    (h : fetchFromBody data = .ok rs) :
    (datesOf rs).Pairwise (fun a b => strLe a b = true) ∧ sortRows rs = .ok rs := by
  rcases fetchFromBody_sortRows h with ⟨rows, hr⟩
  exact ⟨sortRows_sorted hr, sortRows_idem hr⟩

theorem pairwise_strict_of_nodup {l : List String}
    (hs : l.Pairwise (fun a b => strLe a b = true)) (hn : l.Nodup) :
    l.Chain' (fun a b => strLt a b = true) := by
  refine List.Pairwise.chain' ?_
  refine (hs.and hn).imp ?_
  intro a b hab
  exact strLt_of_strLe_of_ne hab.1 hab.2

theorem datesOf_eq_of_colOf {l1 l2 : List Row} (h : colOf l1 "date" = colOf l2 "date") :
    datesOf l1 = datesOf l2 := by
  have hdc : ∀ l : List Row, datesOf l = (colOf l "date").map (fun o => match o with
      | some (.str s) => s
      | _ => "") := by
    intro l
    rw [datesOf, colOf, List.map_map]
    refine List.map_congr_left ?_
    intro r _
    rfl
  rw [hdc, hdc, h]

theorem runAll_success (outcome : String → Except String RunRes) :
    ∀ tickers : List String,
      (runAll outcome tickers).1 = tickers.filterMap (fun s => (outcome s).toOption) := by
  intro tickers
  induction tickers with
  | nil => rfl
  | cons s t ih =>
      rw [runAll, List.filterMap_cons]
      cases ho : outcome s with
      | ok r => simp only [ho, Except.toOption, ih]
      | error e => simp only [ho, Except.toOption, ih]

theorem runAll_errors (outcome : String → Except String RunRes) :
    ∀ tickers : List String,
      (runAll outcome tickers).2 = tickers.filterMap (fun s =>
        match outcome s with
        | .error e => some (s, e)
        | .ok _ => Option.none) := by
  intro tickers
  induction tickers with
  | nil => rfl
  | cons s t ih =>
      rw [runAll, List.filterMap_cons]
      cases ho : outcome s with
      | ok r => simp only [ho, ih]
      | error e => simp only [ho, ih]

theorem runAll_length (outcome : String → Except String RunRes) :
    ∀ tickers : List String,
      (runAll outcome tickers).1.length + (runAll outcome tickers).2.length =
        tickers.length := by
  intro tickers
  induction tickers with
  | nil => rfl
  | cons s t ih =>
      rw [runAll]
      cases ho : outcome s with
      | ok r =>
          simp only [List.length_cons]
          omega
      | error e =>
          simp only [List.length_cons]
          omega

theorem runAll_single_failure (outcome : String → Except String RunRes) (sym : String)
    (m : String) (hsym : outcome sym = .error m) :
    ∀ tickers : List String, tickers.Nodup → sym ∈ tickers →
      (∀ s ∈ tickers, s ≠ sym → ∃ r, outcome s = .ok r) →
      (runAll outcome tickers).2 = [(sym, m)] ∧
      (runAll outcome tickers).1.length = tickers.length - 1 := by
  intro tickers
  induction tickers with
  | nil =>
      intro _ hmem
      cases hmem
  | cons s t ih =>
      intro hnd hmem hok
      rcases List.nodup_cons.mp hnd with ⟨hns, hndt⟩
      by_cases hse : s = sym
      · subst hse
        have hallok : ∀ x ∈ t, ∃ r, outcome x = .ok r := by
          intro x hx
          exact hok x (by simp [hx]) (fun e => hns (by rw [← e]; exact hx))
        have ht2 : (runAll outcome t).2 = [] := by
          rw [runAll_errors]
          rw [List.filterMap_eq_nil_iff]
          intro x hx
          rcases hallok x hx with ⟨r, hr⟩
          rw [hr]
        have ht1 : (runAll outcome t).1.length = t.length := by
          have := runAll_length outcome t
          rw [ht2] at this
          simpa using this
        rw [runAll, hsym]
        refine ⟨by rw [ht2], ?_⟩
        simp only [List.length_cons]
        omega
      · have hmem' : sym ∈ t := by
          rcases List.mem_cons.mp hmem with he | hm
          · exact absurd he.symm hse
          · exact hm
        have hok' : ∀ x ∈ t, x ≠ sym → ∃ r, outcome x = .ok r :=
          fun x hx => hok x (by simp [hx])
        rcases ih hndt hmem' hok' with ⟨h2, h1⟩
        rcases hok s (by simp) hse with ⟨r, hr⟩
        rw [runAll, hr]
        refine ⟨h2, ?_⟩
        simp only [List.length_cons]
        have hpos := List.length_pos_of_mem hmem'
        omega

theorem list_find?_append (l₁ l₂ : List α) (p : α → Bool) :
    (l₁ ++ l₂).find? p = ((l₁.find? p) <|> (l₂.find? p)) := by
  induction l₁ with
  | nil => simp
  | cons a t ih =>
      rw [List.cons_append, List.find?, List.find?]
      cases hp : p a with
      | true => simp
      | false => simpa using ih

theorem list_find?_map (l : List α) (f : α → β) (p : β → Bool) :
    (l.map f).find? p = (l.find? (fun a => p (f a))).map f := by
  induction l with
  | nil => rfl
  | cons a t ih =>
      rw [List.map_cons, List.find?, List.find?]
      cases hp : p (f a) with
      | true => simp
      | false => simpa using ih

theorem dictGet_updFields (k : String) : ∀ (fs m : List (String × PyVal)),
    dictGet (updFields m fs) k =
      (((fs.reverse.find? (fun kv => kv.1 = k)).map (·.2)) <|> dictGet m k) := by
  intro fs
  induction fs with
  | nil => simp [updFields]
  | cons kv t ih =>
      intro m
      rw [updFields, ih]
      rw [List.reverse_cons, list_find?_append]
      cases hfind : t.reverse.find? (fun kv' => kv'.1 = k) with
      | some x => simp
      | none =>
          simp only [hfind, Option.none_orElse]
          by_cases hk : kv.1 = k
          · subst hk
            rw [dictGet_dictSet_self]
            simp [List.find?]
          · rw [dictGet_dictSet_ne _ _ _ _ hk]
            simp [List.find?, hk]

theorem lastWrite_append (a b : List (String × String × PyVal)) (dt k : String) :
    lastWrite (a ++ b) dt k = ((lastWrite b dt k) <|> (lastWrite a dt k)) := by
  rw [lastWrite, lastWrite, lastWrite, List.reverse_append, list_find?_append]
  cases hb : b.reverse.find? (fun w => w.1 = dt && w.2.1 = k) with
  | some x => simp
  | none => simp

theorem lastWrite_tag (fs : List (String × PyVal)) (dt' dt k : String) :
    lastWrite (fs.map (fun kv => (dt', kv.1, kv.2))) dt k =
      if dt' = dt then ((fs.reverse.find? (fun kv => kv.1 = k)).map (·.2)) else Option.none := by
  rw [lastWrite, ← List.map_reverse, list_find?_map]
  by_cases hd : dt' = dt
  · subst hd
    rw [if_pos rfl]
    have hp : (fun kv : String × PyVal => decide (dt' = dt') && decide (kv.1 = k)) =
        (fun kv : String × PyVal => decide (kv.1 = k)) := by
      funext kv
      simp
    simp only [hp]
    rw [Option.map_map]
    rfl
  · rw [if_neg hd]
    have hnone : fs.reverse.find? (fun kv : String × PyVal =>
        decide (dt' = dt) && decide (kv.1 = k)) = Option.none := by
      rw [List.find?_eq_none]
      intro kv hkv
      simp [hd]
    rw [hnone]
    rfl

theorem opt_orElse_assoc (a b c : Option α) : ((a <|> b) <|> c) = (a <|> (b <|> c)) := by
  cases a <;> cases b <;> simp

theorem dictGet2_mergeInto (dt k : String) : ∀ (r c : IndDict),
    dictGet2 (mergeInto c r) dt k = ((lastWrite (writesOf r) dt k) <|> dictGet2 c dt k) := by
  intro r
  induction r with
  | nil => simp [mergeInto, writesOf, lastWrite, List.find?]
  | cons p t ih =>
      intro c
      obtain ⟨dt', fs⟩ := p
      rw [mergeInto, ih]
      rw [show writesOf ((dt', fs) :: t) =
        fs.map (fun kv => (dt', kv.1, kv.2)) ++ writesOf t from rfl]
      rw [lastWrite_append, lastWrite_tag, opt_orElse_assoc]
      by_cases hd : dt' = dt
      · subst hd
        rw [if_pos rfl]
        have hl : dictGet2 (dictSet c dt' (updFields ((dictGet c dt').getD []) fs)) dt' k =
            ((fs.reverse.find? (fun kv => kv.1 = k)).map (·.2) <|> dictGet2 c dt' k) := by
          rw [dictGet2, dictGet_dictSet_self]
          show dictGet (updFields ((dictGet c dt').getD []) fs) k = _
          rw [dictGet_updFields]
          cases hget : dictGet c dt' with
          | none =>
              rw [dictGet2, hget]
              rfl
          | some m =>
              rw [dictGet2, hget]
              rfl
        rw [hl]
      · rw [if_neg hd]
        have hne : dictGet2 (dictSet c dt' (updFields ((dictGet c dt').getD []) fs)) dt k =
            dictGet2 c dt k := by
          rw [dictGet2, dictGet_dictSet_ne _ _ _ _ hd, dictGet2]
        rw [hne]
        cases hw : lastWrite (writesOf t) dt k <;> simp

theorem dictGet2_runCalls (call : String → PyVal → Except Unit IndDict) (dt k : String) :
    ∀ (calls : List (String × PyVal)) (c : IndDict),
      dictGet2 (runCalls call c calls) dt k =
        ((lastWrite (allWrites call calls) dt k) <|> dictGet2 c dt k) := by
  intro calls
  induction calls with
  | nil =>
      intro c
      simp [runCalls, allWrites, lastWrite, List.find?]
  | cons np t ih =>
      intro c
      obtain ⟨n, p⟩ := np
      rw [runCalls, allWrites]
      cases hcall : call n p with
      | error e =>
          rw [ih]
          rfl
      | ok res =>
          rw [ih, dictGet2_mergeInto, lastWrite_append, opt_orElse_assoc]

theorem fetch_all_indicators_lastWrite {cfg : List (String × PyVal)}
    {call : String → PyVal → Except Unit IndDict} {calls : List (String × PyVal)}
    (hc : indCalls cfg = .ok calls) :
    fetch_all_indicators cfg call = .ok (runCalls call [] calls) ∧
    ∀ dt k, dictGet2 (runCalls call [] calls) dt k = lastWrite (allWrites call calls) dt k := by
  constructor
  · rw [fetch_all_indicators, exbind_ok hc]
  · intro dt k
    rw [dictGet2_runCalls]
    have : dictGet2 [] dt k = Option.none := rfl
    rw [this]
    cases lastWrite (allWrites call calls) dt k <;> simp

theorem mem_dictSet_cases {α : Type} {d : List (String × α)} {k : String} {v : α} :
    ∀ e ∈ dictSet d k v, e = (k, v) ∨ e ∈ d := by
  induction d with
  | nil =>
      intro e he
      simp [dictSet] at he
      exact Or.inl he
  | cons kv t ih =>
      intro e he
      rw [dictSet] at he
      by_cases hk : kv.1 = k
      · rw [if_pos hk] at he
        rcases List.mem_cons.mp he with he | he
        · exact Or.inl he
        · exact Or.inr (by simp [he])
      · rw [if_neg hk] at he
        rcases List.mem_cons.mp he with he | he
        · exact Or.inr (by simp [he])
        · rcases ih e he with h | h
          · exact Or.inl h
          · exact Or.inr (by simp [h])

theorem updFields_keys {P : String → Prop} :
    ∀ (fs m : List (String × PyVal)), (∀ kv ∈ m, P kv.1) → (∀ kv ∈ fs, P kv.1) →
      ∀ kv ∈ updFields m fs, P kv.1 := by
  intro fs
  induction fs with
  | nil => intro m hm _ kv hkv; exact hm kv hkv
  | cons x t ih =>
      intro m hm hf kv hkv
      rw [updFields] at hkv
      refine ih _ ?_ (fun y hy => hf y (by simp [hy])) kv hkv
      intro y hy
      rcases mem_dictSet_cases y hy with he | he
      · rw [he]
        exact hf x (by simp)
      · exact hm y he

theorem dictGet_mem {α : Type} {d : List (String × α)} {k : String} {v : α}
    (h : dictGet d k = some v) : (k, v) ∈ d := by
  induction d with
  | nil => cases h
  | cons kv t ih =>
      rw [dictGet] at h
      by_cases hk : kv.1 = k
      · rw [if_pos hk] at h
        cases h
        refine List.mem_cons.mpr (Or.inl ?_)
        cases kv
        simp at hk
        rw [hk]
      · rw [if_neg hk] at h
        exact List.mem_cons.mpr (Or.inr (ih h))

theorem indRow_underscore {name : String} {output out : IndDict} {row : PyVal}
    (hinv : ∀ e ∈ output, ∀ kv ∈ e.2, '_' ∈ kv.1.toList)
    (h : indRow name output row = .ok out) :
    ∀ e ∈ out, ∀ kv ∈ e.2, '_' ∈ kv.1.toList := by
  cases row with
  | dict rkvs =>
      rw [indRow] at h
      cases hd : dictGet rkvs "datetime" with
      | none =>
          rw [hd] at h
          cases h
          exact hinv
      | some v =>
          cases v with
          | str s =>
              rw [hd] at h
              simp only [] at h
              by_cases hdt : s.take 10 = ""
              · rw [if_pos hdt] at h
                cases h
                exact hinv
              · rw [if_neg hdt] at h
                cases h
                intro e he kv hkv
                rcases mem_dictSet_cases e he with he' | he'
                · subst he'
                  refine updFields_keys (P := fun k => '_' ∈ k.toList) _ _ ?_ ?_ kv hkv
                  · intro y hy
                    cases hget : dictGet output (s.take 10) with
                    | none =>
                        rw [hget] at hy
                        cases hy
                    | some m =>
                        rw [hget] at hy
                        exact hinv (s.take 10, m) (dictGet_mem hget) y hy
                  · intro y hy
                    rcases List.mem_map.mp hy with ⟨z, hz, hzy⟩
                    rw [← hzy]
                    show '_' ∈ (name ++ "_" ++ z.1).toList
                    have happ : (name ++ "_" ++ z.1).toList =
                        name.toList ++ "_".toList ++ z.1.toList := by
                      simp [String.toList]
                    rw [happ]
                    simp
                · exact hinv e he' kv hkv
          | null => rw [hd] at h; cases h
          | bool b => rw [hd] at h; cases h
          | num q => rw [hd] at h; cases h
          | real x => rw [hd] at h; cases h
          | listv xs => rw [hd] at h; cases h
          | dict kvs2 => rw [hd] at h; cases h
  | null => cases h
  | bool b => cases h
  | str s => cases h
  | num q => cases h
  | real x => cases h
  | listv xs => cases h

theorem indRows_underscore {name : String} :
    ∀ {items : List PyVal} {output out : IndDict},
      (∀ e ∈ output, ∀ kv ∈ e.2, '_' ∈ kv.1.toList) →
      indRows name output items = .ok out →
      ∀ e ∈ out, ∀ kv ∈ e.2, '_' ∈ kv.1.toList := by
  intro items
  induction items with
  | nil =>
      intro output out hinv h
      cases h
      exact hinv
  | cons row t ih =>
      intro output out hinv h
      rw [indRows] at h
      cases hr : indRow name output row with
      | error e =>
          rw [exbind_error hr] at h
          cases h
      | ok output' =>
          rw [exbind_ok hr] at h
          exact ih (indRow_underscore hinv hr) h

theorem fetch_indicator_underscore {name : String} {data : PyVal} {out : IndDict}
    (h : fetch_indicator name data = .ok out) :
    ∀ e ∈ out, ∀ kv ∈ e.2, '_' ∈ kv.1.toList := by
  cases data with
  | dict kvs =>
      rw [fetch_indicator] at h
      by_cases hst : statusIsError kvs
      · rw [if_pos hst] at h
        cases h
      · rw [if_neg hst] at h
        cases hv : dictGet kvs "values" with
        | none =>
            rw [hv] at h
            cases h
            intro e he
            cases he
        | some v =>
            rw [hv] at h
            simp only [] at h
            cases hit : pyIter v with
            | error e =>
                rw [exbind_error hit] at h
                cases h
            | ok items =>
                rw [exbind_ok hit] at h
                exact indRows_underscore (by intro e he; cases he) h
  | listv xs =>
      rw [fetch_indicator] at h
      by_cases hm : hasValuesElem xs
      · rw [if_pos hm] at h
        cases h
      · rw [if_neg hm] at h
        cases h
        intro e he
        cases he
  | str s =>
      rw [fetch_indicator] at h
      by_cases hm : strHasSub s.toList "values".toList
      · rw [if_pos hm] at h
        cases h
      · rw [if_neg hm] at h
        cases h
        intro e he
        cases he
  | null => cases h
  | bool b => cases h
  | num q => cases h
  | real x => cases h

theorem mergeIndicators_cols {sym : String} {ind : IndDict}
    (hund : ∀ e ∈ ind, ∀ kv ∈ e.2, '_' ∈ kv.1.toList) :
    ∀ {rows out : List Row}, mergeIndicators sym ind rows = .ok out →
      out.length = rows.length ∧
      ∀ k, ('_' ∈ k.toList → False) → k ≠ "symbol" → colOf out k = colOf rows k := by
  intro rows
  induction rows with
  | nil =>
      intro out h
      cases h
      exact ⟨rfl, fun _ _ _ => rfl⟩
  | cons r t ih =>
      intro out h
      rw [mergeIndicators] at h
      cases hd : dictGet r "date" with
      | none =>
          rw [hd] at h
          simp only [] at h
          rw [exbind_error rfl] at h
          cases h
      | some v =>
          have step : ∀ (r' : Row), (∀ k, ('_' ∈ k.toList → False) → k ≠ "symbol" →
              dictGet r' k = dictGet r k) →
              (do
                let rest ← mergeIndicators sym ind t
                Except.ok (dictSet r' "symbol" (.str sym) :: rest)) = .ok out →
              out.length = (r :: t).length ∧
              ∀ k, ('_' ∈ k.toList → False) → k ≠ "symbol" → colOf out k = colOf (r :: t) k := by
            intro r' hr' hh
            cases hrest : mergeIndicators sym ind t with
            | error e =>
                rw [exbind_error hrest] at hh
                cases hh
            | ok rest =>
                rw [exbind_ok hrest] at hh
                cases hh
                rcases ih hrest with ⟨hlen, hcols⟩
                refine ⟨by simp [hlen], ?_⟩
                intro k hk hks
                simp only [colOf, List.map_cons]
                rw [dictGet_dictSet_ne _ _ _ _ (fun e => hks e.symm), hr' k hk hks]
                have := hcols k hk hks
                simp only [colOf] at this
                rw [this]
          cases v with
          | str d =>
              rw [hd] at h
              simp only [] at h
              refine step _ ?_ h
              intro k hk hks
              refine dictGet_updFields_notMem _ _ _ ?_
              intro kv hkv
              intro he
              apply hk
              rw [← he]
              cases hget : dictGet ind d with
              | none =>
                  rw [hget] at hkv
                  cases hkv
              | some m =>
                  rw [hget] at hkv
                  exact hund (d, m) (dictGet_mem hget) kv hkv
          | null => rw [hd] at h; exact step _ (fun _ _ _ => rfl) h
          | bool b => rw [hd] at h; exact step _ (fun _ _ _ => rfl) h
          | num q => rw [hd] at h; exact step _ (fun _ _ _ => rfl) h
          | real x => rw [hd] at h; exact step _ (fun _ _ _ => rfl) h
          | listv xs => rw [hd] at h; exact step _ (fun _ _ _ => rfl) h
          | dict kvs => rw [hd] at h; exact step _ (fun _ _ _ => rfl) h

theorem getLast?_cons_or (a : α) : ∀ l : List α, (a :: l).getLast? = (l.getLast? <|> some a) := by
  intro l
  induction l generalizing a with
  | nil => rfl
  | cons b t ih =>
      rw [List.getLast?_cons_cons, ih b]
      cases ht : t.getLast? <;> rfl

theorem drExpected_length : ∀ (closes : List (Option ℚ)) (prev : Option ℚ),
    (drExpected prev closes).length = closes.length := by
  intro closes
  induction closes with
  | nil => intro prev; rfl
  | cons c t ih =>
      intro prev
      cases c with
      | none => simp [drExpected, ih]
      | some cv =>
          cases prev with
          | none => simp [drExpected, ih]
          | some pv => simp [drExpected, ih]

theorem prevNonNullClose_cons (c : Option ℚ) (t : List (Option ℚ)) (i : ℕ) :
    prevNonNullClose (c :: t) (i + 1) =
      ((prevNonNullClose t i) <|> (match c with | some cv => some cv | Option.none => Option.none)) := by
  rw [prevNonNullClose, prevNonNullClose, List.take_succ_cons]
  cases c with
  | none =>
      rw [List.filterMap_cons_none rfl]
      cases hl : ((t.take i).filterMap id).getLast? <;> rfl
  | some cv =>
      rw [List.filterMap_cons_some (f := id) rfl]
      rw [getLast?_cons_or]

theorem drExpected_getD : ∀ (closes : List (Option ℚ)) (prev : Option ℚ) (i : ℕ),
    i < closes.length →
    (drExpected prev closes).getD i .null =
      (match closes.getD i Option.none, ((prevNonNullClose closes i) <|> prev) with
       | some c, some p => PyVal.num (c / p - 1)
       | _, _ => PyVal.null) := by
  intro closes
  induction closes with
  | nil =>
      intro prev i hi
      cases hi
  | cons c t ih =>
      intro prev i hi
      cases i with
      | zero =>
          have hpz : prevNonNullClose (c :: t) 0 = Option.none := rfl
          rw [hpz]
          cases c with
          | none => cases prev <;> rfl
          | some cv => cases prev <;> rfl
      | succ i =>
          have hstep : (drExpected prev (c :: t)).getD (i + 1) .null =
              (drExpected (match c with | some cv => some cv | Option.none => prev) t).getD
                i .null := by
            cases c with
            | none => rfl
            | some cv => cases prev <;> rfl
          rw [hstep, ih _ i (by simpa using hi)]
          rw [prevNonNullClose_cons]
          have hget : (c :: t).getD (i + 1) Option.none = t.getD i Option.none := rfl
          rw [hget]
          cases c with
          | none =>
              cases hp : prevNonNullClose t i <;> rfl
          | some cv =>
              cases hp : prevNonNullClose t i <;> cases prev <;> rfl

theorem closesNonzero_of_mem {rows rows' : List Row}
    (hsub : ∀ r ∈ rows', r ∈ rows) (hz : closesNonzero rows = true) :
    closesNonzero rows' = true := by
  rw [closesNonzero, List.all_eq_true]
  intro r hr
  exact (List.all_eq_true.mp hz) r (hsub r hr)

theorem sortRows_of_datesOk {rows : List Row} (hd : datesOk rows = true) :
    sortRows rows = .ok ((insertAllRows (rows.map (fun r => (dateOf r, r))) []).map (·.2)) := by
  rw [sortRows, exbind_ok (keyRows_ok_of_dates (datesOk_date_str hd))]

theorem compute_ok_any {rows : List Row} {dl : List String}
    (hd : datesOk rows = true) (hz : closesNonzero rows = true) :
    ∃ out, compute_derived_features rows dl = .ok out ∧ out.length = rows.length := by
  by_cases hemp : rows.isEmpty
  · have hnil : rows = [] := List.isEmpty_iff.mp hemp
    subst hnil
    exact ⟨[], rfl, rfl⟩
  · have hsort := sortRows_of_datesOk hd
    set rows' := (insertAllRows (rows.map (fun r => (dateOf r, r))) []).map (·.2) with hrows'
    have hidem : sortRows rows' = .ok rows' := sortRows_idem hsort
    have hlen' : rows'.length = rows.length := sortRows_length hsort
    have hz' : closesNonzero rows' = true :=
      closesNonzero_of_mem (sortRows_mem hsort) hz
    have hne' : ¬ rows'.isEmpty = true := by
      intro hx
      have : rows' = [] := List.isEmpty_iff.mp hx
      rw [this] at hlen'
      have : rows = [] := List.eq_nil_of_length_eq_zero hlen'.symm
      rw [this] at hemp
      exact hemp rfl
    have heq : compute_derived_features rows dl = compute_derived_features rows' dl := by
      rw [compute_derived_features, compute_derived_features, if_neg hemp, if_neg hne',
        exbind_ok hsort, exbind_ok hidem]
    rcases @compute_ok rows' dl hidem hz' with ⟨out, hout, hlo, _⟩
    exact ⟨out, by rw [heq, hout], by rw [hlo, hlen']⟩

/-- C1, counterexample.  The claim says a body shaped as an `error`-field
vendor envelope must fail; the code only tests `status == "error"`, so
`{"error": "invalid symbol"}` falls through to the `values` default and
the fetch succeeds with an empty row sequence. -/
theorem C1_counterexample :
    fetchFromBody (.dict [("error", PyVal.str "invalid symbol")]) = .ok [] ∧
    ¬ isVendorError (fetchFromBody (.dict [("error", PyVal.str "invalid symbol")])) := by
  refine ⟨rfl, ?_⟩
  intro hv
  rcases hv with ⟨m, hm⟩
  rw [show fetchFromBody (.dict [("error", PyVal.str "invalid symbol")]) = .ok [] from rfl]
    at hm
  cases hm

/-- C1, amended.  Only a body with `status == "error"` is treated as a
vendor error; an error-shaped body without that field (such as
`{"error": ...}` or `{"code": ..., "message": ...}`) and without a
`values` key yields a successful empty row sequence.  A `status:"error"`
response for one symbol among N yields exactly one failure record for that
symbol, the other N−1 symbols succeed, and the run completes. -/
theorem C1_vendor_error_amended :
    (∀ kvs : List (String × PyVal), statusIsError kvs = true →
      fetchFromBody (.dict kvs) = .error (.vendorError (objGetV kvs "message"))) ∧
    (∀ kvs : List (String × PyVal), statusIsError kvs = false →
      dictGet kvs "values" = Option.none → fetchFromBody (.dict kvs) = .ok []) ∧
    (∀ (outcome : String → Except String RunRes) (tickers : List String) (sym m : String),
      outcome sym = .error m → tickers.Nodup → sym ∈ tickers →
      (∀ s ∈ tickers, s ≠ sym → ∃ r, outcome s = .ok r) →
      (lambda_handler tickers outcome).errors = [(sym, m)] ∧
      (lambda_handler tickers outcome).success.length = tickers.length - 1) := by
  refine ⟨fun kvs h => fetch_status_error h, fun kvs h hv => fetch_no_values h hv, ?_⟩
  intro outcome tickers sym m hsym hnd hmem hok
  exact runAll_single_failure outcome sym m hsym tickers hnd hmem hok

/-- C1, witness for the amended theorem at concrete inputs. -/
theorem C1_witness :
    fetchFromBody (.dict [("status", PyVal.str "error"), ("message", PyVal.str "bad symbol")]) =
      .error (.vendorError (PyVal.str "bad symbol")) ∧
    fetchFromBody (.dict [("code", PyVal.num 404), ("message", PyVal.str "not found")]) =
      .ok [] ∧
    (lambda_handler ["AAPL", "BAD", "MSFT"]
      (fun s => if s = "BAD" then .error "boom" else .ok ⟨s, 3, "out"⟩)).errors =
      [("BAD", "boom")] := by
  refine ⟨C1_vendor_error_amended.1 _ rfl, C1_vendor_error_amended.2.1 _ rfl rfl, ?_⟩
  refine (C1_vendor_error_amended.2.2 _ ["AAPL", "BAD", "MSFT"] "BAD" "boom" rfl
    (by decide) (by decide) ?_).1
  intro s hs hne
  simp only [List.mem_cons, List.mem_singleton] at hs
  rcases hs with rfl | rfl | rfl | hs
  · exact ⟨⟨"AAPL", 3, "out"⟩, rfl⟩
  · exact absurd rfl hne
  · exact ⟨⟨"MSFT", 3, "out"⟩, rfl⟩
  · cases hs

/-- C5, counterexample.  The claim says each numeric field of a returned
row is coerced to a float, with failed coercion becoming null; the fetch
actually stores the vendor's raw values, so `"close": "abc"` is kept as
the string `"abc"`, not null. -/
theorem C5_counterexample :
    fetchFromBody (.dict [("values", .listv
        [.dict [("datetime", PyVal.str "2024-01-02"), ("close", PyVal.str "abc")]])]) =
      .ok [[("date", PyVal.str "2024-01-02"), ("open", PyVal.null), ("high", PyVal.null),
        ("low", PyVal.null), ("close", PyVal.str "abc"), ("volume", PyVal.null)]] ∧
    PyVal.str "abc" ≠ PyVal.null ∧
    _safe_float (PyVal.str "abc") = Option.none := by
  refine ⟨rfl, ?_, rfl⟩
  intro h
  cases h

/-- C5, amended.  The fetch keeps every numeric field exactly as the
vendor sent it (missing fields become null) and keeps the row; numeric
coercion to float — with failures degrading to null — happens only when
the derived-feature engine reads the `close`/`open`/`volume` columns
through `_safe_float`. -/
theorem C5_raw_fields_amended :
    (∀ (vkvs : List (String × PyVal)) (s : String),
      dictGet vkvs "datetime" = some (.str s) → ¬ s.take 10 = "" →
      buildRow (.dict vkvs) = .ok (some [("date", .str (s.take 10)),
        ("open", objGetV vkvs "open"), ("high", objGetV vkvs "high"),
        ("low", objGetV vkvs "low"), ("close", objGetV vkvs "close"),
        ("volume", objGetV vkvs "volume")])) ∧
    (_safe_float PyVal.null = Option.none) ∧
    (∀ q, _safe_float (PyVal.num q) = some q) ∧
    (∀ s, _safe_float (PyVal.str s) = parseFloat s) ∧
    (∀ xs, _safe_float (PyVal.listv xs) = Option.none) ∧
    (∀ kvs, _safe_float (PyVal.dict kvs) = Option.none) ∧
    (∀ rows : List Row, closesOf rows = rows.map (fun r => _safe_float (objGetV r "close"))) := by
  refine ⟨?_, rfl, fun q => rfl, fun s => rfl, fun xs => rfl, fun kvs => rfl, fun rows => rfl⟩
  intro vkvs s hdt hne
  rw [buildRow, hdt]
  simp only []
  rw [if_neg hne]

/-- C5, witness for the amended theorem at a concrete input. -/
theorem C5_witness :
    buildRow (.dict [("datetime", PyVal.str "2024-01-02"), ("close", PyVal.str "101.5"),
        ("volume", PyVal.str "xyz")]) =
      .ok (some [("date", PyVal.str "2024-01-02"), ("open", PyVal.null),
        ("high", PyVal.null), ("low", PyVal.null), ("close", PyVal.str "101.5"),
        ("volume", PyVal.str "xyz")]) :=
  C5_raw_fields_amended.1 _ "2024-01-02" rfl (by decide)

/-- C6, counterexample.  The claim says a payload that is not a list after
unwrapping must fail with `UnexpectedFormatError`; the code defaults a
missing `values` key to `[]`, so the non-list body `{"foo": 1}` succeeds
with an empty row sequence (and no typed `UnexpectedFormatError` exists in
the code at all). -/
theorem C6_counterexample :
    fetchFromBody (.dict [("foo", PyVal.num 1)]) = .ok [] ∧
    ∀ e, fetchFromBody (.dict [("foo", PyVal.num 1)]) ≠ .error e := by
  refine ⟨rfl, ?_⟩
  intro e h
  rw [show fetchFromBody (.dict [("foo", PyVal.num 1)]) = .ok [] from rfl] at h
  cases h

/-- C6, amended.  A 2xx body that is not a JSON object fails with a
generic `AttributeError` (from `data.get`); an object whose `values` key
holds a non-iterable scalar fails with a generic `TypeError`; but an
object without a `values` key — list-shaped or not — succeeds with an
empty row sequence.  No typed `UnexpectedFormatError` exists. -/
theorem C6_format_amended :
    (∀ xs : List PyVal, fetchFromBody (.listv xs) = .error .attributeError) ∧
    (∀ s, fetchFromBody (.str s) = .error .attributeError) ∧
    (∀ q, fetchFromBody (.num q) = .error .attributeError) ∧
    (fetchFromBody .null = .error .attributeError) ∧
    (∀ kvs q, statusIsError kvs = false → dictGet kvs "values" = some (.num q) →
      fetchFromBody (.dict kvs) = .error .typeError) ∧
    (∀ kvs, statusIsError kvs = false → dictGet kvs "values" = Option.none →
      fetchFromBody (.dict kvs) = .ok []) := by
  refine ⟨fun xs => rfl, fun s => rfl, fun q => rfl, rfl, ?_, ?_⟩
  · intro kvs q hst hv
    exact fetch_values_not_iterable hst hv rfl
  · intro kvs hst hv
    exact fetch_no_values hst hv

/-- C6, witness for the amended theorem at concrete inputs. -/
theorem C6_witness :
    fetchFromBody (.dict [("values", PyVal.num 3)]) = .error .typeError ∧
    fetchFromBody (.dict [("error", PyVal.str "oops")]) = .ok [] := by
  exact ⟨C6_format_amended.2.2.2.2.1 _ 3 rfl rfl, C6_format_amended.2.2.2.2.2 _ rfl rfl⟩

/-- C2, counterexample.  The claim quantifies over every sorted row
sequence, but on closes `["0", "1"]` the code divides `1.0` by the
previous close `0.0` and raises `ZeroDivisionError`, so no annotated
sequence with the claimed `daily_return` values exists for this input. -/
theorem C2_counterexample :
    sortRows [[("date", PyVal.str "2024-01-02"), ("close", PyVal.str "0")],
      [("date", PyVal.str "2024-01-03"), ("close", PyVal.str "1")]] =
      .ok [[("date", PyVal.str "2024-01-02"), ("close", PyVal.str "0")],
        [("date", PyVal.str "2024-01-03"), ("close", PyVal.str "1")]] ∧
    compute_derived_features
      [[("date", PyVal.str "2024-01-02"), ("close", PyVal.str "0")],
       [("date", PyVal.str "2024-01-03"), ("close", PyVal.str "1")]]
      ["daily_return"] = .error .zeroDivisionError :=
  ⟨rfl, rfl⟩

/-- C2, amended.  On a date-sorted row sequence whose non-null coerced
closes are all nonzero (a zero previous close instead raises
`ZeroDivisionError`), with `daily_return` enabled, the engine succeeds and
`daily_return[i]` equals `close[i]/p − 1` with `p` the most recent
non-null close strictly before `i` (nulls do not reset the pointer), and
is null exactly when `close[i]` is null or no such `p` exists. -/
theorem C2_daily_return_amended (rows : List Row) (dl : List String)
    (hs : sortRows rows = .ok rows) (hdl : "daily_return" ∈ dl)
    (hz : closesNonzero rows = true) :
    ∃ out, compute_derived_features rows dl = .ok out ∧ out.length = rows.length ∧
      ∀ i, i < rows.length →
        (colOf out "daily_return").getD i Option.none = some (drSpec (closesOf rows) i) ∧
        ((colOf out "daily_return").getD i Option.none = some PyVal.null ↔
          ((closesOf rows).getD i Option.none = Option.none ∨
           prevNonNullClose (closesOf rows) i = Option.none)) := by
  rcases @compute_ok rows dl hs hz with ⟨out, hout, hlen, _, hdr, _, _⟩
  refine ⟨out, hout, hlen, ?_⟩
  intro i hi
  have hlc : (closesOf rows).length = rows.length := List.length_map _ _
  have hcol : (colOf out "daily_return").getD i Option.none =
      some ((drExpected Option.none (closesOf rows)).getD i .null) := by
    rw [hdr hdl]
    rw [List.getD_eq_getElem?_getD, List.getElem?_map]
    have hidx : (drExpected Option.none (closesOf rows))[i]? =
        some ((drExpected Option.none (closesOf rows)).getD i .null) := by
      rw [List.getD_eq_getElem?_getD]
      cases hx : (drExpected Option.none (closesOf rows))[i]? with
      | some v => rfl
      | none =>
          exfalso
          have := List.getElem?_eq_none_iff.mp hx
          rw [drExpected_length] at this
          omega
    rw [hidx]
    rfl
  have hspec : (drExpected Option.none (closesOf rows)).getD i .null =
      drSpec (closesOf rows) i := by
    rw [drExpected_getD _ _ _ (by omega), drSpec]
    cases hp : prevNonNullClose (closesOf rows) i <;>
      cases hc : (closesOf rows).getD i Option.none <;> rfl
  constructor
  · rw [hcol, hspec]
  · rw [hcol, hspec, drSpec]
    cases hp : prevNonNullClose (closesOf rows) i <;>
      cases hc : (closesOf rows).getD i Option.none
    · simp
    · simp
    · simp
    · constructor
      · intro hx
        exfalso
        have := Option.some_injective _ hx
        cases this
      · intro hx
        rcases hx with hx | hx <;> cases hx

/-- C2, witness for the amended theorem at a concrete sorted input. -/
theorem C2_witness :
    ∃ out, compute_derived_features
      [[("date", PyVal.str "2024-01-02"), ("close", PyVal.str "10")],
       [("date", PyVal.str "2024-01-03"), ("close", PyVal.str "11")]]
      ["daily_return"] = .ok out ∧ out.length = 2 := by
  rcases C2_daily_return_amended
    [[("date", PyVal.str "2024-01-02"), ("close", PyVal.str "10")],
     [("date", PyVal.str "2024-01-03"), ("close", PyVal.str "11")]]
    ["daily_return"] rfl (by decide) rfl with ⟨out, hout, hlen, _⟩
  exact ⟨out, hout, hlen⟩

/-- C3, counterexample.  The claim promises a strictly ascending date
sequence for every vendor response, but nothing deduplicates dates: a
response repeating `2024-01-02` produces two rows with equal dates, which
is not strictly ascending. -/
theorem C3_counterexample :
    fetchFromBody (.dict [("values", .listv
        [.dict [("datetime", PyVal.str "2024-01-02")],
         .dict [("datetime", PyVal.str "2024-01-02")]])]) =
      .ok [[("date", PyVal.str "2024-01-02"), ("open", PyVal.null), ("high", PyVal.null),
            ("low", PyVal.null), ("close", PyVal.null), ("volume", PyVal.null)],
           [("date", PyVal.str "2024-01-02"), ("open", PyVal.null), ("high", PyVal.null),
            ("low", PyVal.null), ("close", PyVal.null), ("volume", PyVal.null)]] ∧
    datesOf [[("date", PyVal.str "2024-01-02"), ("open", PyVal.null), ("high", PyVal.null),
            ("low", PyVal.null), ("close", PyVal.null), ("volume", PyVal.null)],
           [("date", PyVal.str "2024-01-02"), ("open", PyVal.null), ("high", PyVal.null),
            ("low", PyVal.null), ("close", PyVal.null), ("volume", PyVal.null)]] =
      ["2024-01-02", "2024-01-02"] ∧
    ¬ List.Chain' (fun a b => strLt a b = true) ["2024-01-02", "2024-01-02"] := by
  refine ⟨rfl, rfl, ?_⟩
  intro h
  have := List.chain'_cons.mp h
  rw [show strLt "2024-01-02" "2024-01-02" = false from rfl] at this
  cases this.1

/-- C3, amended.  The fetch output is sorted ascending (non-strictly) by
date for every response, it is strictly ascending whenever the response
carries no duplicate date, and the derived-feature engine preserves the
date sequence of its (sorted) input. -/
theorem C3_sorted_amended :
    (∀ (data : PyVal) (rs : List Row), fetchFromBody data = .ok rs →
      (datesOf rs).Pairwise (fun a b => strLe a b = true) ∧
      ((datesOf rs).Nodup → (datesOf rs).Chain' (fun a b => strLt a b = true)) ∧
      sortRows rs = .ok rs) ∧
    (∀ (rows out : List Row) (dl : List String), sortRows rows = .ok rows →
      closesNonzero rows = true → compute_derived_features rows dl = .ok out →
      datesOf out = datesOf rows) := by
  constructor
  · intro data rs h
    rcases fetchFromBody_sorted h with ⟨hpair, hidem⟩
    exact ⟨hpair, fun hnd => pairwise_strict_of_nodup hpair hnd, hidem⟩
  · intro rows out dl hs hz hout
    rcases @compute_ok rows dl hs hz with ⟨out', hout', _, hne, _, _, _⟩
    have heq : out' = out := by
      rw [hout] at hout'
      cases hout'
      rfl
    subst heq
    refine datesOf_eq_of_colOf ?_
    exact hne "date" (by decide) (by decide) (by decide) (by decide) (by decide)

/-- C3, witness: the spec's own example — vendor dates out of order come
back ascending, and the engine keeps them so. -/
theorem C3_witness :
    (datesOf [[("date", PyVal.str "2024-01-02"), ("open", PyVal.null), ("high", PyVal.null),
            ("low", PyVal.null), ("close", PyVal.null), ("volume", PyVal.null)],
           [("date", PyVal.str "2024-01-03"), ("open", PyVal.null), ("high", PyVal.null),
            ("low", PyVal.null), ("close", PyVal.null), ("volume", PyVal.null)]]).Chain'
      (fun a b => strLt a b = true) := by
  have hfetch : fetchFromBody (.dict [("values", .listv
      [.dict [("datetime", PyVal.str "2024-01-03")],
       .dict [("datetime", PyVal.str "2024-01-02")]])]) =
      .ok [[("date", PyVal.str "2024-01-02"), ("open", PyVal.null), ("high", PyVal.null),
            ("low", PyVal.null), ("close", PyVal.null), ("volume", PyVal.null)],
           [("date", PyVal.str "2024-01-03"), ("open", PyVal.null), ("high", PyVal.null),
            ("low", PyVal.null), ("close", PyVal.null), ("volume", PyVal.null)]] := rfl
  exact (C3_sorted_amended.1 _ _ hfetch).2.1 (by decide)

/-- C4.  For W ∈ {5, 20}, `_window_std` computes exactly the spec's sample
standard deviation of the non-null closes in the trailing width-W window
clipped at the start of the sequence; it is null exactly when that window
holds fewer than two non-null closes; and the engine stores exactly this
value in `rolling_volatility_{W}d[i]`. -/
theorem C4_rolling_volatility :
    (∀ (values : List (Option ℚ)) (i : ℕ), i < values.length →
      _window_std values i 5 = specRollingVol values i 5 ∧
      _window_std values i 20 = specRollingVol values i 20) ∧
    (∀ (values : List (Option ℚ)) (i w : ℕ),
      (_window_std values i w = Option.none ↔ (windowVals values i w).length < 2)) ∧
    (∀ (rows out : List Row) (dl : List String), sortRows rows = .ok rows →
      closesNonzero rows = true → compute_derived_features rows dl = .ok out →
      ∀ i, i < rows.length →
        ("rolling_volatility_5d" ∈ dl →
          (colOf out "rolling_volatility_5d").getD i Option.none =
            some (stdVal (_window_std (closesOf rows) i 5))) ∧
        ("rolling_volatility_20d" ∈ dl →
          (colOf out "rolling_volatility_20d").getD i Option.none =
            some (stdVal (_window_std (closesOf rows) i 20)))) := by
  refine ⟨?_, window_std_none_iff, ?_⟩
  · intro values i hi
    exact ⟨window_std_spec hi, window_std_spec hi⟩
  · intro rows out dl hs hz hout i hi
    rcases @compute_ok rows dl hs hz with ⟨out', hout', _, _, _, h5, h20⟩
    have heq : out' = out := by
      rw [hout] at hout'
      cases hout'
      rfl
    subst heq
    have hrange : ∀ w : ℕ,
        (((List.range rows.length).map
          (fun j => some (stdVal (_window_std (closesOf rows) j w)))).getD i Option.none) =
          some (stdVal (_window_std (closesOf rows) i w)) := by
      intro w
      rw [List.getD_eq_getElem?_getD, List.getElem?_map, List.getElem?_range hi]
      rfl
    exact ⟨fun hm => by rw [h5 hm, hrange], fun hm => by rw [h20 hm, hrange]⟩

/-- C4, witness at a concrete input (all closes null, so every window has
fewer than two non-null values and each stored volatility is null). -/
theorem C4_witness :
    _window_std [some 1, some 2, some 3, Option.none, some 5, some 6] 3 5 =
      specRollingVol [some 1, some 2, some 3, Option.none, some 5, some 6] 3 5 ∧
    ((colOf [[("date", PyVal.str "2024-01-02"), ("rolling_volatility_5d", PyVal.null)]]
        "rolling_volatility_5d").getD 0 Option.none = some PyVal.null) := by
  constructor
  · exact (C4_rolling_volatility.1 [some 1, some 2, some 3, Option.none, some 5, some 6] 3
      (by decide)).1
  · have h := (C4_rolling_volatility.2.2
      [[("date", PyVal.str "2024-01-02")]]
      [[("date", PyVal.str "2024-01-02"), ("rolling_volatility_5d", PyVal.null)]]
      ["rolling_volatility_5d"] rfl rfl rfl 0 (by decide)).1 (by decide)
    rw [h]
    rfl

/-- C7.  The combined per-date indicator mapping is built by applying
every successful call's per-date field writes in configuration/period
order, so the value stored under any `(date, key)` is the one written by
the last call (in configured order) that supplies that key for that date —
last-write-wins exactly as claimed. -/
theorem C7_last_write_wins
    (tech_cfg : List (String × PyVal)) (call : String → PyVal → Except Unit IndDict)
    (calls : List (String × PyVal)) (cmb : IndDict)
    (hcalls : indCalls tech_cfg = .ok calls)
    (hrun : fetch_all_indicators tech_cfg call = .ok cmb) :
    ∀ dt k, dictGet2 cmb dt k = lastWrite (allWrites call calls) dt k := by
  rcases @fetch_all_indicators_lastWrite tech_cfg call calls hcalls with ⟨hok, hlw⟩
  have heq : cmb = runCalls call [] calls := by
    rw [hok] at hrun
    cases hrun
    rfl
  subst heq
  exact hlw

/-- C7, witness: one indicator configured with two periods supplies
`rsi_value` twice for the same date (50 then 60); the merged mapping keeps
the later value 60. -/
theorem C7_witness :
    dictGet2
      (runCalls
        (fun n p => Except.ok [("2024-01-02",
          [(n ++ "_value",
            (match p with
             | PyVal.dict kvs => objGetV kvs "time_period"
             | _ => PyVal.null))])])
        []
        [("rsi", PyVal.dict [("time_period", PyVal.num 50)]),
         ("rsi", PyVal.dict [("time_period", PyVal.num 60)])])
      "2024-01-02" "rsi_value" = some (PyVal.num 60) := by
  have h := C7_last_write_wins
    [("rsi", PyVal.dict [("periods", PyVal.listv [PyVal.num 50, PyVal.num 60])])]
    (fun n p => Except.ok [("2024-01-02",
      [(n ++ "_value",
        (match p with
         | PyVal.dict kvs => objGetV kvs "time_period"
         | _ => PyVal.null))])])
    [("rsi", PyVal.dict [("time_period", PyVal.num 50)]),
     ("rsi", PyVal.dict [("time_period", PyVal.num 60)])]
    (runCalls
      (fun n p => Except.ok [("2024-01-02",
        [(n ++ "_value",
          (match p with
           | PyVal.dict kvs => objGetV kvs "time_period"
           | _ => PyVal.null))])])
      []
      [("rsi", PyVal.dict [("time_period", PyVal.num 50)]),
       ("rsi", PyVal.dict [("time_period", PyVal.num 60)])])
    rfl rfl "2024-01-02" "rsi_value"
  rw [h]
  rfl

/-- C8.  The handler loop records each ticker's outcome independently and
in order: the success list is exactly the tickers whose pipeline
succeeded, the failure list exactly those whose pipeline raised (as
`(symbol, message)` records), every ticker lands in exactly one of the two
lists, and a single failing symbol among distinct tickers produces exactly
one failure record. -/
theorem C8_partition (tickers : List String) (outcome : String → Except String RunRes) :
    (lambda_handler tickers outcome).success =
      tickers.filterMap (fun s => (outcome s).toOption) ∧
    (lambda_handler tickers outcome).errors =
      tickers.filterMap (fun s =>
        match outcome s with
        | .error e => some (s, e)
        | .ok _ => Option.none) ∧
    (lambda_handler tickers outcome).success.length +
      (lambda_handler tickers outcome).errors.length = tickers.length ∧
    (lambda_handler tickers outcome).tickers_count = tickers.length ∧
    (∀ sym m, outcome sym = .error m → tickers.Nodup → sym ∈ tickers →
      (∀ s ∈ tickers, s ≠ sym → ∃ r, outcome s = .ok r) →
      (lambda_handler tickers outcome).errors = [(sym, m)]) := by
  refine ⟨runAll_success outcome tickers, runAll_errors outcome tickers,
    runAll_length outcome tickers, rfl, ?_⟩
  intro sym m hsym hnd hmem hok
  exact (runAll_single_failure outcome sym m hsym tickers hnd hmem hok).1

/-- C8, witness at a concrete ticker list with one failing symbol. -/
theorem C8_witness :
    (lambda_handler ["A", "B"]
      (fun s => if s = "A" then .ok ⟨"A", 1, "f"⟩ else .error "bad")).success.length +
    (lambda_handler ["A", "B"]
      (fun s => if s = "A" then .ok ⟨"A", 1, "f"⟩ else .error "bad")).errors.length = 2 ∧
    (lambda_handler ["A", "B"]
      (fun s => if s = "A" then .ok ⟨"A", 1, "f"⟩ else .error "bad")).errors =
      [("B", "bad")] := by
  constructor
  · exact (C8_partition ["A", "B"] _).2.2.1
  · refine (C8_partition ["A", "B"] _).2.2.2.2 "B" "bad" rfl (by decide) (by decide) ?_
    intro s hs hne
    simp only [List.mem_cons, List.mem_singleton] at hs
    rcases hs with rfl | rfl | hs
    · exact ⟨⟨"A", 1, "f"⟩, rfl⟩
    · exact absurd rfl hne
    · cases hs

/-- C9, counterexample.  The engine is not exception-free on every input:
a row without a `date` key makes the sort key raise `KeyError`, and a zero
close followed by a non-null close makes the `daily_return` division raise
`ZeroDivisionError`. -/
theorem C9_counterexample :
    compute_derived_features [[("close", PyVal.str "1")], [("date", PyVal.str "2024-01-05")]]
      [] = .error .keyError ∧
    compute_derived_features
      [[("date", PyVal.str "2023-05-01"), ("close", PyVal.str "0")],
       [("date", PyVal.str "2023-05-02"), ("close", PyVal.str "5")]]
      ["daily_return"] = .error .zeroDivisionError :=
  ⟨rfl, rfl⟩

/-- C9, amended.  On inputs where every row carries a string `date` and
every non-null coerced close is nonzero, the engine terminates normally
with one output row per input row; window computations read nothing past
the current index (truncating the input at `i` leaves every window value
unchanged) and clip at the sequence start. -/
theorem C9_no_raise_amended :
    (∀ (rows : List Row) (dl : List String), datesOk rows = true →
      closesNonzero rows = true →
      ∃ out, compute_derived_features rows dl = .ok out ∧ out.length = rows.length) ∧
    (∀ (values : List (Option ℚ)) (i w : ℕ),
      _window_std (values.take (i + 1)) i w = _window_std values i w) ∧
    (∀ (values : List (Option ℚ)) (i w : ℕ),
      windowSlice values i w = (values.take (i + 1)).drop (i + 1 - w)) :=
  ⟨fun _ _ hd hz => compute_ok_any hd hz, window_std_take, fun _ _ _ => rfl⟩

/-- C9, witness: an unsorted input with missing and null fields and all
five features enabled still yields a normal result. -/
theorem C9_witness :
    ∃ out, compute_derived_features
      [[("date", PyVal.str "2024-01-03")],
       [("date", PyVal.str "2024-01-02"), ("close", PyVal.null), ("open", PyVal.null)]]
      ["daily_return", "rolling_volatility_5d", "rolling_volatility_20d", "price_gap",
       "volume_zscore"] = .ok out ∧ out.length = 2 :=
  C9_no_raise_amended.1
    [[("date", PyVal.str "2024-01-03")],
     [("date", PyVal.str "2024-01-02"), ("close", PyVal.null), ("open", PyVal.null)]]
    ["daily_return", "rolling_volatility_5d", "rolling_volatility_20d", "price_gap",
     "volume_zscore"] rfl rfl

/-- C10.  Neither the derived-feature engine nor the indicator merge
touches the base OHLCV columns: the engine only writes the five derived
feature names, the merge only writes indicator keys of the form
`{name}_{field}` — which always contain an underscore, while no base field
does — plus `symbol`, and the fetch hands over an already-sorted sequence
so row positions line up. -/
theorem C10_frame_effect :
    (∀ (rows out : List Row) (dl : List String), sortRows rows = .ok rows →
      closesNonzero rows = true → compute_derived_features rows dl = .ok out →
      ∀ k, k ∈ baseFields → colOf out k = colOf rows k) ∧
    (∀ (sym : String) (ind : IndDict) (rows out : List Row),
      (∀ e ∈ ind, ∀ kv ∈ e.2, '_' ∈ kv.1.toList) →
      mergeIndicators sym ind rows = .ok out →
      ∀ k, k ∈ baseFields → colOf out k = colOf rows k) ∧
    (∀ (name : String) (data : PyVal) (d : IndDict), fetch_indicator name data = .ok d →
      ∀ e ∈ d, ∀ kv ∈ e.2, '_' ∈ kv.1.toList) ∧
    (∀ (data : PyVal) (rs : List Row), fetchFromBody data = .ok rs →
      sortRows rs = .ok rs) := by
  refine ⟨?_, ?_, fun name data d h => fetch_indicator_underscore h,
    fun data rs h => (fetchFromBody_sorted h).2⟩
  · intro rows out dl hs hz hout k hk
    rcases @compute_ok rows dl hs hz with ⟨out', hout', _, hne, _, _, _⟩
    have heq : out' = out := by
      rw [hout] at hout'
      cases hout'
      rfl
    subst heq
    rw [baseFields] at hk
    simp only [List.mem_cons, List.mem_singleton] at hk
    rcases hk with rfl | rfl | rfl | rfl | rfl | rfl | hk
    · exact hne _ (by decide) (by decide) (by decide) (by decide) (by decide)
    · exact hne _ (by decide) (by decide) (by decide) (by decide) (by decide)
    · exact hne _ (by decide) (by decide) (by decide) (by decide) (by decide)
    · exact hne _ (by decide) (by decide) (by decide) (by decide) (by decide)
    · exact hne _ (by decide) (by decide) (by decide) (by decide) (by decide)
    · exact hne _ (by decide) (by decide) (by decide) (by decide) (by decide)
    · cases hk
  · intro sym ind rows out hund hmerge k hk
    rcases mergeIndicators_cols hund hmerge with ⟨_, hcols⟩
    rw [baseFields] at hk
    simp only [List.mem_cons, List.mem_singleton] at hk
    rcases hk with rfl | rfl | rfl | rfl | rfl | rfl | hk
    · exact hcols _ (by decide) (by decide)
    · exact hcols _ (by decide) (by decide)
    · exact hcols _ (by decide) (by decide)
    · exact hcols _ (by decide) (by decide)
    · exact hcols _ (by decide) (by decide)
    · exact hcols _ (by decide) (by decide)
    · cases hk

/-- C10, witness: a concrete engine run and a concrete indicator merge
leave the `close` column untouched. -/
theorem C10_witness :
    colOf [[("date", PyVal.str "2024-01-02"), ("close", PyVal.str "7"),
        ("price_gap", PyVal.null)]] "close" =
      colOf [[("date", PyVal.str "2024-01-02"), ("close", PyVal.str "7")]] "close" ∧
    colOf [[("date", PyVal.str "2024-01-02"), ("close", PyVal.str "7"),
        ("rsi_value", PyVal.num 50), ("symbol", PyVal.str "AAPL")]] "close" =
      colOf [[("date", PyVal.str "2024-01-02"), ("close", PyVal.str "7")]] "close" := by
  constructor
  · exact C10_frame_effect.1
      [[("date", PyVal.str "2024-01-02"), ("close", PyVal.str "7")]]
      [[("date", PyVal.str "2024-01-02"), ("close", PyVal.str "7"),
        ("price_gap", PyVal.null)]]
      ["price_gap"] rfl rfl rfl "close" (by decide)
  · refine C10_frame_effect.2.1 "AAPL"
      [("2024-01-02", [("rsi_value", PyVal.num 50)])]
      [[("date", PyVal.str "2024-01-02"), ("close", PyVal.str "7")]]
      [[("date", PyVal.str "2024-01-02"), ("close", PyVal.str "7"),
        ("rsi_value", PyVal.num 50), ("symbol", PyVal.str "AAPL")]]
      ?_ rfl "close" (by decide)
    intro e he kv hkv
    simp only [List.mem_singleton] at he
    subst he
    simp only [List.mem_singleton] at hkv
    subst hkv
    decide
